import Mathlib

/-!
Verification of fetch-eo.js: the bounded worker pool `runPool` and the EO aggregation of `main`

The development embeds `src/scripts/fetch-eo.js`.

* `runPool` (lines 16-37) is a set of cooperating `async` workers.  JavaScript runs
  each stretch of code between two `await`s without interruption, so a worker is a
  small state machine whose transitions are those stretches; which suspended worker
  is resumed next is decided by the event loop and is modelled by an arbitrary
  schedule `sched : Nat → Nat`.
* the aggregation loop of `main` (lines 76-93) is a pure fold over the pick results.

Modelling choices for `runPool`:

* every invocation of a task settles (fulfils or rejects); its outcome depends on the
  entry and on how many times that entry has been invoked before;
* the check `next < tasks.length`, the claim `next++` and the first call are one step, as
  in the source, where no `await` separates them;
* the loop head is a point where the schedule may switch workers, and a call that throws
  synchronously is treated like a call whose promise rejects.  The source continues
  without suspension in both places, so the model has every interleaving of the source
  and some more;
* `concurrency` is an integer and `onProgress`, when supplied, does not throw.
-/

namespace FetchEo

/-! ## Values, tasks and worker states -/

/-- Settled value of a task as far as `runPool` looks at it: JavaScript `null`, or any
other value (carrying its payload). -/
inductive Val (α : Type) where
  | null : Val α
  | data (a : α) : Val α
  deriving DecidableEq, Repr

/-- Outcome of one evaluation of `await tasks[idx]()`: the promise fulfils with a value,
or the call throws / the promise rejects. -/
inductive Outcome (α : Type) where
  | ok (v : Val α) : Outcome α
  | fail : Outcome α
  deriving DecidableEq, Repr

/-- One entry of the `tasks` array.  A callable entry is described by the outcome of its
`n`-th invocation (0-based); any other entry is not callable. -/
inductive TaskFn (α : Type) where
  | callable (f : Nat → Outcome α) : TaskFn α
  | notCallable : TaskFn α

/-- Evaluating `tasks[idx]()` for the `n`-th time.  Calling something that is not a
function throws a `TypeError` inside the `try` block, which the `catch` sees as a failure. -/
def TaskFn.invoke {α : Type} : TaskFn α → Nat → Outcome α
  | TaskFn.callable f, n => f n
  | TaskFn.notCallable, _ => Outcome.fail

/-- Observable actions of a run, in the order in which they happen. -/
inductive Event (α : Type) where
  /-- Worker `w` executed `const idx = next++`. -/
  | claim (w idx : Nat) : Event α
  /-- Evaluation of `tasks[idx]()`. -/
  | call (idx : Nat) : Event α
  /-- Backoff wait `setTimeout(r, ms)` after a failed attempt on `idx`. -/
  | sleep (idx ms : Nat) : Event α
  /-- Worker `w` executed `results[idx] = v`. -/
  | write (w idx : Nat) (v : Val α) : Event α
  /-- The `console.warn` for `idx`. -/
  | warn (idx : Nat) : Event α
  /-- Call `onProgress(completed, total)`. -/
  | progress (completed total : Nat) : Event α
  deriving DecidableEq, Repr

/-- Control point at which a worker is suspended. -/
inductive WState (α : Type) where
  /-- At the loop head `while (next < tasks.length)` -/
  | ready : WState α
  /-- Suspended in `await tasks[idx]()` of the given attempt; `p` is how the promise settles -/
  | awaiting (idx attempt : Nat) (p : Outcome α) : WState α
  /-- Suspended in the backoff `await new Promise(r => setTimeout(...))` of the given attempt -/
  | sleeping (idx attempt : Nat) : WState α
  /-- The `while` loop has been left -/
  | done : WState α
  deriving DecidableEq, Repr

/-- The variables shared by the workers of one `runPool` call (`next`, `completed`,
`results`), the control state of each worker, and the log of observable actions.
A slot of `results` is `none` while it is still a hole of `new Array(n)`. -/
structure State (α : Type) where
  next : Nat
  completed : Nat
  results : List (Option (Val α))
  workers : List (WState α)
  trace : List (Event α)
  deriving Repr

variable {α : Type}

/-- TaskFn index an event is about (`none` for progress reports). -/
def Event.task : Event α → Option Nat
  | Event.claim _ idx => some idx
  | Event.call idx => some idx
  | Event.sleep idx _ => some idx
  | Event.write _ idx _ => some idx
  | Event.warn idx => some idx
  | Event.progress _ _ => none

def Event.isCall (idx : Nat) : Event α → Bool
  | Event.call j => j == idx
  | _ => false

def Event.isWarn (idx : Nat) : Event α → Bool
  | Event.warn j => j == idx
  | _ => false

def Event.isAttempt (idx : Nat) : Event α → Bool
  | Event.call j => j == idx
  | Event.sleep j _ => j == idx
  | _ => false

def Event.isWrite (idx : Nat) : Event α → Bool
  | Event.write _ j _ => j == idx
  | _ => false

/-- Events of the log that concern task `idx`, in order. -/
def proj (idx : Nat) (tr : List (Event α)) : List (Event α) :=
  tr.filter (fun e => e.task == some idx)

/-- How many times `tasks[idx]()` has been evaluated so far. -/
def callCount (idx : Nat) (tr : List (Event α)) : Nat :=
  tr.countP (Event.isCall idx)

def warnCount (idx : Nat) (tr : List (Event α)) : Nat :=
  tr.countP (Event.isWarn idx)

def writeCount (idx : Nat) (tr : List (Event α)) : Nat :=
  tr.countP (Event.isWrite idx)

/-- The `(worker, index)` pairs of the `claim` events, in order. -/
def claimsOf : List (Event α) → List (Nat × Nat)
  | [] => []
  | Event.claim w idx :: tr => (w, idx) :: claimsOf tr
  | _ :: tr => claimsOf tr

/-- The `(completed, total)` arguments of the `onProgress` calls, in order. -/
def progressOf : List (Event α) → List (Nat × Nat)
  | [] => []
  | Event.progress c t :: tr => (c, t) :: progressOf tr
  | _ :: tr => progressOf tr

/-- The `(index, ms)` arguments of the backoff waits, in order. -/
def sleepsOf : List (Event α) → List (Nat × Nat)
  | [] => []
  | Event.sleep idx ms :: tr => (idx, ms) :: sleepsOf tr
  | _ :: tr => sleepsOf tr

/-- Backoff waits (in ms) of task `idx`, in order. -/
def sleepsFor (idx : Nat) (tr : List (Event α)) : List Nat :=
  ((sleepsOf tr).filter (fun p => p.1 == idx)).map Prod.snd

/-! ## `runPool` -/

/-- Outcome of the evaluation of `tasks[idx]()` that is about to happen: the entry is
invoked for the `callCount`-th time.  An index outside the array reads `undefined`,
which is not callable. -/
def invokeTask (tasks : List (TaskFn α)) (idx : Nat) (tr : List (Event α)) : Outcome α :=
  (tasks.getD idx TaskFn.notCallable).invoke (callCount idx tr)

/-- Lines 31-33: `completed++; if (onProgress) onProgress(completed, tasks.length)`, then
back to the loop head. -/
def finishTask (tasks : List (TaskFn α)) (onProgress : Bool) (s : State α) (w : Nat) : State α :=
  { s with
    completed := s.completed + 1
    workers := s.workers.set w WState.ready
    trace := if onProgress then s.trace ++ [Event.progress (s.completed + 1) tasks.length]
             else s.trace }

/-- Worker `w` runs from the point where it is suspended to its next suspension point
(lines 20-33 of `worker`). -/
def stepWorker (tasks : List (TaskFn α)) (onProgress : Bool) (s : State α) (w : Nat) : State α :=
  match s.workers[w]? with
  | none => s
  | some WState.done => s
  | some WState.ready =>
      if s.next < tasks.length then
        -- const idx = next++; attempt = 0; tasks[idx]()
        { s with
          next := s.next + 1
          workers := s.workers.set w (WState.awaiting s.next 0 (invokeTask tasks s.next s.trace))
          trace := s.trace ++ [Event.claim w s.next, Event.call s.next] }
      else
        { s with workers := s.workers.set w WState.done }
  | some (WState.awaiting idx _ (Outcome.ok v)) =>
      -- results[idx] = <value>; break
      finishTask tasks onProgress
        { s with
          results := s.results.set idx (some v)
          trace := s.trace ++ [Event.write w idx v] } w
  | some (WState.awaiting idx attempt Outcome.fail) =>
      if attempt = 2 then
        -- results[idx] = null; console.warn(...); attempt++ leaves the for loop
        finishTask tasks onProgress
          { s with
            results := s.results.set idx (some Val.null)
            trace := s.trace ++ [Event.write w idx Val.null, Event.warn idx] } w
      else
        { s with
          workers := s.workers.set w (WState.sleeping idx attempt)
          trace := s.trace ++ [Event.sleep idx (500 * (attempt + 1))] }
  | some (WState.sleeping idx attempt) =>
      -- attempt++; attempt < 3 ?
      if attempt + 1 < 3 then
        { s with
          workers := s.workers.set w
            (WState.awaiting idx (attempt + 1) (invokeTask tasks idx s.trace))
          trace := s.trace ++ [Event.call idx] }
      else
        finishTask tasks onProgress s w

/-- Number of workers started by line 35:
`Array.from({ length: Math.min(concurrency, tasks.length) }, ...)`; a negative length
yields the empty array. -/
def workerCount (tasks : List (TaskFn α)) (concurrency : Int) : Nat :=
  (min concurrency (tasks.length : Int)).toNat

/-- State at line 35, when the workers have been created (lines 17-18). -/
def initState (tasks : List (TaskFn α)) (concurrency : Int) : State α :=
  { next := 0
    completed := 0
    results := List.replicate tasks.length none
    workers := List.replicate (workerCount tasks concurrency) WState.ready
    trace := [] }

def WState.isDone : WState α → Bool
  | WState.done => true
  | _ => false

/-- Workers that have not left their loop. -/
def liveWorkers (s : State α) : List Nat :=
  (List.range s.workers.length).filter
    (fun w => match s.workers[w]? with
      | some ws => !ws.isDone
      | none => false)

/-- All workers have returned, so `Promise.all` resolves. -/
def isFinal (s : State α) : Bool :=
  (liveWorkers s).isEmpty

/-- One turn of the event loop: the schedule picks one of the workers that are still
running and that worker runs to its next suspension point. -/
def schedStep (tasks : List (TaskFn α)) (onProgress : Bool) (s : State α) (c : Nat) : State α :=
  match liveWorkers s with
  | [] => s
  | w :: ws => stepWorker tasks onProgress s ((w :: ws).getD (c % (ws.length + 1)) w)

/-- State of the run after `t` turns under schedule `sched`. -/
def stateAt (tasks : List (TaskFn α)) (concurrency : Int) (onProgress : Bool)
    (sched : Nat → Nat) : Nat → State α
  | 0 => initState tasks concurrency
  | t + 1 => schedStep tasks onProgress (stateAt tasks concurrency onProgress sched t) (sched t)

/-- The run driven for `fuel` turns: the final state if every worker has returned. -/
def runPoolState (tasks : List (TaskFn α)) (concurrency : Int) (onProgress : Bool)
    (sched : Nat → Nat) (fuel : Nat) : Option (State α) :=
  let s := stateAt tasks concurrency onProgress sched fuel
  if isFinal s then some s else none

/-- What `runPool(tasks, concurrency, onProgress)` resolves to (line 36). -/
def runPool (tasks : List (TaskFn α)) (concurrency : Int) (onProgress : Bool)
    (sched : Nat → Nat) (fuel : Nat) : Option (List (Option (Val α))) :=
  (runPoolState tasks concurrency onProgress sched fuel).map State.results

/-- Number of turns after which every run has ended. -/
def fuelBound (tasks : List (TaskFn α)) (concurrency : Int) : Nat :=
  7 * tasks.length + workerCount tasks concurrency

/-! ## Reference behaviour of a single task -/

/-- Log of the attempts `0 .. a` of task `idx` up to and including the call of attempt `a`:
each failed attempt `n` (0-based) is followed by a wait of `500 * (n + 1)` ms and the
next call. -/
def attemptsLog (idx : Nat) : Nat → List (Event α)
  | 0 => [Event.call idx]
  | a + 1 => attemptsLog idx a ++ [Event.sleep idx (500 * (a + 1)), Event.call idx]

/-- The calls and backoff waits of task `idx` in a log, in order. -/
def attemptsOf (idx : Nat) (tr : List (Event α)) : List (Event α) :=
  tr.filter (Event.isAttempt idx)

/-- Value a task that does not fail produces: the value of its (only) invocation. -/
def producedValue (t : TaskFn α) : Option (Val α) :=
  match t.invoke 0 with
  | Outcome.ok v => some v
  | Outcome.fail => none

/-- Running the tasks one after the other in index order and collecting, position by
position, the value each one produces. -/
def sequentialRun (tasks : List (TaskFn α)) : List (Option (Val α)) :=
  tasks.map producedValue

/-! ## Invariant of a run -/

/-- Index of the task a worker is working on, if any. -/
def WState.task : WState α → Option Nat
  | WState.awaiting idx _ _ => some idx
  | WState.sleeping idx _ => some idx
  | _ => none

/-- Number of workers that are inside an attempt or a backoff wait. -/
def running (s : State α) : Nat :=
  s.workers.countP (fun ws => ws.task.isSome)

/-- Entry `idx` of `tasks` as the call `tasks[idx]()` sees it. -/
def taskAt (tasks : List (TaskFn α)) (idx : Nat) : TaskFn α :=
  tasks.getD idx TaskFn.notCallable

/-- What is known about the task held by worker `w` in control state `ws`. -/
def WorkerOk (tasks : List (TaskFn α)) (s : State α) (w : Nat) : WState α → Prop
  | WState.ready => True
  | WState.done => tasks.length ≤ s.next
  | WState.awaiting idx a p =>
      idx < s.next ∧ a < 3 ∧ s.results[idx]? = some none ∧
      proj idx s.trace = Event.claim w idx :: attemptsLog idx a ∧
      p = (taskAt tasks idx).invoke a ∧
      ∀ j, j < a → (taskAt tasks idx).invoke j = Outcome.fail
  | WState.sleeping idx a =>
      idx < s.next ∧ a < 2 ∧ s.results[idx]? = some none ∧
      proj idx s.trace =
        Event.claim w idx :: (attemptsLog idx a ++ [Event.sleep idx (500 * (a + 1))]) ∧
      ∀ j, j ≤ a → (taskAt tasks idx).invoke j = Outcome.fail

/-- Task `idx` has reached its terminal status: it succeeded at attempt `k` after `k`
failures, or failed three times. -/
def Settled (tasks : List (TaskFn α)) (s : State α) (idx : Nat) : Prop :=
  ∃ w k, k < 3 ∧ (∀ j, j < k → (taskAt tasks idx).invoke j = Outcome.fail) ∧
    ((∃ v, (taskAt tasks idx).invoke k = Outcome.ok v ∧
        s.results[idx]? = some (some v) ∧
        proj idx s.trace = Event.claim w idx :: (attemptsLog idx k ++ [Event.write w idx v])) ∨
     (k = 2 ∧ (taskAt tasks idx).invoke 2 = Outcome.fail ∧
        s.results[idx]? = some (some Val.null) ∧
        proj idx s.trace =
          Event.claim w idx :: (attemptsLog idx 2 ++ [Event.write w idx Val.null, Event.warn idx])))

/-- No worker is working on task `idx`. -/
def Unheld (s : State α) (idx : Nat) : Prop :=
  ∀ (w : Nat) (ws : WState α), s.workers[w]? = some ws → ws.task ≠ some idx

/-- Invariant of every state of a run. -/
structure Inv (tasks : List (TaskFn α)) (concurrency : Int) (onProgress : Bool)
    (s : State α) : Prop where
  next_le : s.next ≤ tasks.length
  results_len : s.results.length = tasks.length
  workers_len : s.workers.length = workerCount tasks concurrency
  worker_ok : ∀ (w : Nat) (ws : WState α), s.workers[w]? = some ws → WorkerOk tasks s w ws
  settled : ∀ idx, idx < s.next → Unheld s idx → Settled tasks s idx
  unclaimed : ∀ idx, s.next ≤ idx →
    proj idx s.trace = [] ∧ (idx < tasks.length → s.results[idx]? = some none)
  balance : s.completed + running s = s.next
  claims : (claimsOf s.trace).map Prod.snd = List.range s.next
  progress : progressOf s.trace =
    if onProgress then (List.range s.completed).map (fun k => (k + 1, tasks.length)) else []

/-- Weight of a worker in the termination measure. -/
def WState.weight : WState α → Nat
  | WState.ready => 1
  | WState.done => 0
  | WState.awaiting _ a _ => 3 + 2 * (2 - a)
  | WState.sleeping _ a => 2 + 2 * (2 - a)

/-- Termination measure: it drops at every turn of a run that has not ended. -/
def potential (tasks : List (TaskFn α)) (s : State α) : Nat :=
  7 * (tasks.length - s.next) + (s.workers.map WState.weight).sum

/-! ## The aggregation of `main` (lines 76-93) -/

/-- One element of `pd.picks`. -/
structure Pick where
  element : Nat
  multiplier : Int
  deriving DecidableEq, Repr

/-- Parsed body of a picks response; `picks` is `none` when the member is missing. -/
structure PicksBody where
  picks : Option (List Pick)
  deriving DecidableEq, Repr

/-- Counters kept per player while looping (line 83).  The source holds them as
JavaScript numbers; they are integers, which `+=` and `++` keep exact up to magnitude
`2^53`. -/
structure Tally where
  multiplierSum : Int
  selected : Nat
  captained : Nat
  tripled : Nat
  deriving DecidableEq, Repr

/-- Lines 85-88 applied to the counters of the picked player. -/
def Tally.bump (p : Tally) (m : Int) : Tally :=
  { multiplierSum := p.multiplierSum + m
    selected := p.selected + 1
    captained := if m = 2 then p.captained + 1 else p.captained
    tripled := if m = 3 then p.tripled + 1 else p.tripled }

/-- Lines 83-88: the player entry is created on first sight, then updated. -/
def addPick (players : List (Nat × Tally)) (pick : Pick) : List (Nat × Tally) :=
  match players.lookup pick.element with
  | none =>
      players ++ [(pick.element, Tally.bump ⟨0, 0, 0, 0⟩ pick.multiplier)]
  | some _ =>
      players.map (fun kv =>
        if kv.1 = pick.element then (kv.1, kv.2.bump pick.multiplier) else kv)

/-- The variables `totalManagers` and `players` of the loop. -/
structure Agg where
  totalManagers : Nat
  players : List (Nat × Tally)
  deriving DecidableEq, Repr

/-- Whether the loop body runs for `pd`, that is `pd && pd.picks`. -/
def hasPicks : Option (Val PicksBody) → Bool
  | some (Val.data ⟨some _⟩) => true
  | _ => false

/-- One iteration of the loop of lines 79-90. -/
def aggStep (a : Agg) (pd : Option (Val PicksBody)) : Agg :=
  match pd with
  | some (Val.data ⟨some picks⟩) =>
      { totalManagers := a.totalManagers + 1
        players := picks.foldl addPick a.players }
  | _ => a

/-- Lines 77-90. -/
def tallyAll (picksResults : List (Option (Val PicksBody))) : Agg :=
  picksResults.foldl aggStep ⟨0, []⟩

/-! ### Double-precision arithmetic of line 92

JavaScript numbers are IEEE 754 binary64 values and `/` and `*` return the representable
value nearest to the exact result, ties going to the even significand.  A finite double
is an integer times a power of two, and is kept in that form.  The exponent range
(overflow to `Infinity`, subnormal values) is not modelled: with counters of magnitude
up to `2^53` the quotient and the product of line 92 stay far inside it. -/

/-- A finite double `mant * 2^exp`, in normal form: `mant` is odd, or `mant = 0` and
`exp = 0`. -/
structure F64 where
  mant : Int
  exp : Int
  deriving DecidableEq, Repr

/-- Number of binary digits of `n` (`fuel` at least the number of digits). -/
def bitLen : Nat → Nat → Nat
  | 0, _ => 0
  | fuel + 1, n => if n = 0 then 0 else bitLen fuel (n / 2) + 1

/-- Binary exponent of the positive ratio `num / den`: the `x` with
`2^x ≤ num / den < 2^(x+1)`. -/
def ratioExp (num den : Nat) : Int :=
  let l : Int := (bitLen num num : Int) - (bitLen den den : Int)
  if 0 ≤ l then
    if den * 2 ^ l.toNat ≤ num then l else l - 1
  else
    if den ≤ num * 2 ^ (-l).toNat then l else l - 1

/-- Integer nearest to `n / d`, a tie going to the even one. -/
def roundHalfEven (n d : Nat) : Nat :=
  let fl := n / d
  let r := n % d
  if 2 * r < d then fl
  else if d < 2 * r then fl + 1
  else if fl % 2 = 0 then fl else fl + 1

/-- Number of trailing zero bits of `n` (at most `fuel`). -/
def trailingZeros : Nat → Nat → Nat
  | 0, _ => 0
  | fuel + 1, n => if n % 2 = 0 then trailingZeros fuel (n / 2) + 1 else 0

/-- The double of sign `neg` and magnitude `m * 2^e`, put in normal form
(`m` at most `2^53`). -/
def F64.pack (neg : Bool) (m : Nat) (e : Int) : F64 :=
  if m = 0 then ⟨0, 0⟩
  else
    let t := trailingZeros 64 m
    ⟨if neg then -((m / 2 ^ t : Nat) : Int) else ((m / 2 ^ t : Nat) : Int), e + t⟩

/-- The double nearest to `± (num / den) * 2^e`, ties to even: the ratio is scaled to a
significand of 53 bits, which is rounded to an integer. -/
def F64.round (neg : Bool) (num den : Nat) (e : Int) : F64 :=
  if num = 0 then ⟨0, 0⟩
  else
    let k : Int := 52 - ratioExp num den
    F64.pack neg (roundHalfEven (num * 2 ^ k.toNat) (den * 2 ^ (-k).toNat)) (e - k)

/-- The double nearest to an integer (the integer itself up to magnitude `2^53`). -/
def F64.ofInt (n : Int) : F64 :=
  F64.round (decide (n < 0)) n.natAbs 1 0

/-- The operator `/` on finite doubles, for a divisor other than zero. -/
def f64div (a b : F64) : F64 :=
  F64.round (decide (a.mant < 0) != decide (b.mant < 0))
    a.mant.natAbs b.mant.natAbs (a.exp - b.exp)

/-- The operator `*` on finite doubles. -/
def f64mul (a b : F64) : F64 :=
  F64.round (decide (a.mant < 0) != decide (b.mant < 0))
    (a.mant.natAbs * b.mant.natAbs) 1 (a.exp + b.exp)

/-- A player entry of the output, with its `eo` (line 92). -/
structure Player where
  multiplierSum : Int
  selected : Nat
  captained : Nat
  tripled : Nat
  eo : F64
  deriving DecidableEq, Repr

/-- Line 92: `totalManagers > 0 ? (multiplierSum / totalManagers * 100) : 0`, evaluated
left to right in double precision: the quotient is rounded, then its product by 100. -/
def eoOf (totalManagers : Nat) (p : Tally) : F64 :=
  if totalManagers > 0 then
    f64mul (f64div (F64.ofInt p.multiplierSum) (F64.ofInt totalManagers)) (F64.ofInt 100)
  else F64.ofInt 0

/-- The `totalManagers` and `players` members of `output`. -/
structure Summary where
  totalManagers : Nat
  players : List (Nat × Player)
  deriving DecidableEq, Repr

/-- Lines 76-93 of `main`. -/
def aggregate (picksResults : List (Option (Val PicksBody))) : Summary :=
  let a := tallyAll picksResults
  { totalManagers := a.totalManagers
    players := a.players.map (fun kv =>
      (kv.1, { multiplierSum := kv.2.multiplierSum
               selected := kv.2.selected
               captained := kv.2.captained
               tripled := kv.2.tripled
               eo := eoOf a.totalManagers kv.2 })) }

/-! ## Example inputs -/

/-- Five tasks; task 2 fails twice and then yields "x", the others yield their index. -/
def retryTasks : List (TaskFn String) :=
  [TaskFn.callable (fun _ => Outcome.ok (Val.data "0")),
   TaskFn.callable (fun _ => Outcome.ok (Val.data "1")),
   TaskFn.callable (fun n => if n < 2 then Outcome.fail else Outcome.ok (Val.data "x")),
   TaskFn.callable (fun _ => Outcome.ok (Val.data "3")),
   TaskFn.callable (fun _ => Outcome.ok (Val.data "4"))]

/-- Three tasks; task 1 fails at every invocation. -/
def brokenTasks : List (TaskFn String) :=
  [TaskFn.callable (fun _ => Outcome.ok (Val.data "a")),
   TaskFn.callable (fun _ => Outcome.fail),
   TaskFn.callable (fun _ => Outcome.ok (Val.data "c"))]

/-- Tasks that never fail. -/
def steadyTasks : List (TaskFn String) :=
  [TaskFn.callable (fun _ => Outcome.ok (Val.data "a")),
   TaskFn.callable (fun _ => Outcome.ok Val.null),
   TaskFn.callable (fun n => Outcome.ok (Val.data (toString n)))]

/-- A task list with an entry that is not a function. -/
def oddTasks : List (TaskFn String) :=
  [TaskFn.callable (fun _ => Outcome.ok (Val.data "a")), TaskFn.notCallable]

/-- The schedule that always resumes the first worker still running. -/
def firstLive : Nat → Nat := fun _ => 0

/-- A schedule that rotates through the running workers. -/
def rotate : Nat → Nat := fun t => t

/-- Picks results with two failed fetches, a body without `picks`, and three managers. -/
def samplePicks : List (Option (Val PicksBody)) :=
  [some Val.null,
   some (Val.data ⟨some [⟨7, 2⟩, ⟨9, 1⟩]⟩),
   some (Val.data ⟨none⟩),
   some (Val.data ⟨some [⟨7, 1⟩, ⟨4, 3⟩]⟩),
   some Val.null,
   some (Val.data ⟨some [⟨7, 1⟩]⟩)]

/-! ## Basic facts about logs -/

@[simp] theorem proj_nil (idx : Nat) : proj idx ([] : List (Event α)) = [] := rfl

@[simp] theorem proj_append (idx : Nat) (a b : List (Event α)) :
    proj idx (a ++ b) = proj idx a ++ proj idx b := by
  simp [proj]

theorem proj_cons (idx : Nat) (e : Event α) (l : List (Event α)) :
    proj idx (e :: l) = if e.task = some idx then e :: proj idx l else proj idx l := by
  by_cases h : e.task = some idx <;> simp [proj, List.filter_cons, h]

theorem mem_proj {idx : Nat} {e : Event α} {tr : List (Event α)} :
    e ∈ proj idx tr ↔ e ∈ tr ∧ e.task = some idx := by
  simp [proj, List.mem_filter]

theorem countP_proj (idx : Nat) (p : Event α → Bool) (tr : List (Event α))
    (hp : ∀ e, p e = true → e.task = some idx) :
    (proj idx tr).countP p = tr.countP p := by
  induction tr with
  | nil => rfl
  | cons e l ih =>
    rw [proj_cons]
    by_cases h : e.task = some idx
    · simp [h, List.countP_cons, ih]
    · have hpe : p e = false := by
        cases hq : p e with
        | false => rfl
        | true => exact absurd (hp e hq) h
      simp [h, List.countP_cons, ih, hpe]

theorem callCount_proj (idx : Nat) (tr : List (Event α)) :
    callCount idx (proj idx tr) = callCount idx tr := by
  apply countP_proj
  intro e he
  cases e <;> simp_all [Event.isCall, Event.task]

theorem warnCount_proj (idx : Nat) (tr : List (Event α)) :
    warnCount idx (proj idx tr) = warnCount idx tr := by
  apply countP_proj
  intro e he
  cases e <;> simp_all [Event.isWarn, Event.task]

theorem writeCount_proj (idx : Nat) (tr : List (Event α)) :
    writeCount idx (proj idx tr) = writeCount idx tr := by
  apply countP_proj
  intro e he
  cases e <;> simp_all [Event.isWrite, Event.task]

theorem filter_proj (idx : Nat) (p : Event α → Bool) (tr : List (Event α))
    (hp : ∀ e, p e = true → e.task = some idx) :
    (proj idx tr).filter p = tr.filter p := by
  induction tr with
  | nil => rfl
  | cons e l ih =>
    rw [proj_cons]
    by_cases h : e.task = some idx
    · simp [h, List.filter_cons, ih]
    · have hpe : p e = false := by
        cases hq : p e with
        | false => rfl
        | true => exact absurd (hp e hq) h
      simp [h, List.filter_cons, ih, hpe]

theorem attemptsOf_proj (idx : Nat) (tr : List (Event α)) :
    attemptsOf idx (proj idx tr) = attemptsOf idx tr := by
  apply filter_proj
  intro e he
  cases e <;> simp_all [Event.isAttempt, Event.task]

theorem sleepsOf_proj (idx : Nat) (tr : List (Event α)) :
    sleepsOf (proj idx tr) = (sleepsOf tr).filter (fun p => p.1 == idx) := by
  induction tr with
  | nil => rfl
  | cons e l ih =>
    rw [proj_cons]
    cases e with
    | sleep j ms =>
      by_cases h : j = idx <;> simp [sleepsOf, List.filter_cons, Event.task, h, ih]
    | claim w j =>
      by_cases h : j = idx <;> simp [sleepsOf, Event.task, h, ih]
    | call j =>
      by_cases h : j = idx <;> simp [sleepsOf, Event.task, h, ih]
    | write w j v =>
      by_cases h : j = idx <;> simp [sleepsOf, Event.task, h, ih]
    | warn j =>
      by_cases h : j = idx <;> simp [sleepsOf, Event.task, h, ih]
    | progress c t => simp [sleepsOf, Event.task, ih]

theorem sleepsFor_proj (idx : Nat) (tr : List (Event α)) :
    sleepsFor idx tr = (sleepsOf (proj idx tr)).map Prod.snd := by
  simp [sleepsFor, sleepsOf_proj]

@[simp] theorem claimsOf_append (a b : List (Event α)) :
    claimsOf (a ++ b) = claimsOf a ++ claimsOf b := by
  induction a with
  | nil => rfl
  | cons e l ih => cases e <;> simp [claimsOf, ih]

@[simp] theorem progressOf_append (a b : List (Event α)) :
    progressOf (a ++ b) = progressOf a ++ progressOf b := by
  induction a with
  | nil => rfl
  | cons e l ih => cases e <;> simp [progressOf, ih]

theorem callCount_attemptsLog (idx a : Nat) :
    callCount idx (attemptsLog idx a : List (Event α)) = a + 1 := by
  induction a with
  | zero => simp [attemptsLog, callCount, Event.isCall]
  | succ a ih =>
    simp only [callCount] at ih
    simp [attemptsLog, callCount, Event.isCall, ih]

theorem warnCount_attemptsLog (idx a : Nat) :
    warnCount idx (attemptsLog idx a : List (Event α)) = 0 := by
  induction a with
  | zero => simp [attemptsLog, warnCount, Event.isWarn]
  | succ a ih =>
    simp only [warnCount] at ih
    simp [attemptsLog, warnCount, Event.isWarn, ih]

theorem writeCount_attemptsLog (idx a : Nat) :
    writeCount idx (attemptsLog idx a : List (Event α)) = 0 := by
  induction a with
  | zero => simp [attemptsLog, writeCount, Event.isWrite]
  | succ a ih =>
    simp only [writeCount] at ih
    simp [attemptsLog, writeCount, Event.isWrite, ih]

theorem not_write_mem_attemptsLog (idx a w j : Nat) (v : Val α) :
    Event.write w j v ∉ (attemptsLog idx a : List (Event α)) := by
  induction a with
  | zero => simp [attemptsLog]
  | succ a ih => simp [attemptsLog, ih]

theorem attemptsOf_attemptsLog (idx a : Nat) :
    attemptsOf idx (attemptsLog idx a : List (Event α)) = attemptsLog idx a := by
  induction a with
  | zero => simp [attemptsLog, attemptsOf, Event.isAttempt]
  | succ a ih =>
    simp only [attemptsOf] at ih
    simp [attemptsLog, attemptsOf, Event.isAttempt, ih]

theorem sleepsOf_attemptsLog (idx a : Nat) :
    (sleepsOf (attemptsLog idx a : List (Event α))).map Prod.snd =
      (List.range a).map (fun n => 500 * (n + 1)) := by
  induction a with
  | zero => simp [attemptsLog, sleepsOf]
  | succ a ih =>
    have happ : ∀ (x y : List (Event α)), sleepsOf (x ++ y) = sleepsOf x ++ sleepsOf y := by
      intro x y
      induction x with
      | nil => rfl
      | cons e l ihl => cases e <;> simp [sleepsOf, ihl]
    simp [attemptsLog, happ, sleepsOf, ih, List.range_succ]

/-! ## Facts about lists of workers -/

theorem sum_map_set {β : Type} (f : β → Nat) (l : List β) (w : Nat) (x y : β)
    (h : l[w]? = some y) :
    ((l.set w x).map f).sum + f y = (l.map f).sum + f x := by
  induction l generalizing w with
  | nil => simp at h
  | cons a l ih =>
    cases w with
    | zero =>
      simp at h
      subst h
      simp
      omega
    | succ w =>
      simp at h
      have := ih w h
      simp only [List.set_cons_succ, List.map_cons, List.sum_cons]
      omega

theorem countP_set_add {β : Type} (p : β → Bool) (l : List β) (w : Nat) (x y : β)
    (h : l[w]? = some y) :
    (l.set w x).countP p + (if p y then 1 else 0) = l.countP p + (if p x then 1 else 0) := by
  induction l generalizing w with
  | nil => simp at h
  | cons a l ih =>
    cases w with
    | zero =>
      simp at h
      subst h
      simp [List.countP_cons]
      omega
    | succ w =>
      simp at h
      have := ih w h
      simp [List.countP_cons]
      omega

/-! ## Termination -/

theorem mem_liveWorkers {s : State α} {w : Nat} :
    w ∈ liveWorkers s ↔ ∃ ws, s.workers[w]? = some ws ∧ ws.isDone = false := by
  unfold liveWorkers
  rw [List.mem_filter, List.mem_range]
  constructor
  · rintro ⟨hw, h⟩
    rw [List.getElem?_eq_getElem hw] at h
    exact ⟨s.workers[w], List.getElem?_eq_getElem hw, by simpa using h⟩
  · rintro ⟨ws, hws, hd⟩
    have hw : w < s.workers.length := by
      by_contra hcon
      rw [List.getElem?_eq_none (by omega)] at hws
      cases hws
    exact ⟨hw, by simp [hws, hd]⟩

theorem potential_finishTask (tasks : List (TaskFn α)) (op : Bool) (s : State α) (w : Nat) :
    potential tasks (finishTask tasks op s w) =
      7 * (tasks.length - s.next) + ((s.workers.set w WState.ready).map WState.weight).sum := rfl

theorem potential_stepWorker_lt (tasks : List (TaskFn α)) (op : Bool) (s : State α) (w : Nat)
    (ws : WState α) (hws : s.workers[w]? = some ws) (hd : ws.isDone = false) :
    potential tasks (stepWorker tasks op s w) < potential tasks s := by
  unfold stepWorker
  rw [hws]
  cases ws with
  | done => simp [WState.isDone] at hd
  | ready =>
    have hset := fun x => sum_map_set WState.weight s.workers w x WState.ready hws
    simp only
    split
    · have := hset (WState.awaiting s.next 0 (invokeTask tasks s.next s.trace))
      simp only [potential, WState.weight] at this ⊢
      omega
    · have := hset WState.done
      simp only [potential, WState.weight] at this ⊢
      omega
  | awaiting idx a p =>
    have hset := fun x => sum_map_set WState.weight s.workers w x (WState.awaiting idx a p) hws
    cases p with
    | ok v =>
      simp only
      rw [potential_finishTask]
      have := hset WState.ready
      simp only [potential, WState.weight] at this ⊢
      omega
    | fail =>
      simp only
      split
      · rw [potential_finishTask]
        have := hset WState.ready
        simp only [potential, WState.weight] at this ⊢
        omega
      · have := hset (WState.sleeping idx a)
        simp only [potential, WState.weight] at this ⊢
        omega
  | sleeping idx a =>
    have hset := fun x => sum_map_set WState.weight s.workers w x (WState.sleeping idx a) hws
    simp only
    split
    · have := hset (WState.awaiting idx (a + 1) (invokeTask tasks idx s.trace))
      simp only [potential, WState.weight] at this ⊢
      omega
    · rw [potential_finishTask]
      have := hset WState.ready
      simp only [potential, WState.weight] at this ⊢
      omega

theorem schedStep_of_final (tasks : List (TaskFn α)) (op : Bool) (s : State α) (c : Nat)
    (h : isFinal s = true) : schedStep tasks op s c = s := by
  unfold isFinal at h
  unfold schedStep
  cases hl : liveWorkers s with
  | nil => rfl
  | cons w l => simp [hl] at h

theorem schedStep_eq_stepWorker (tasks : List (TaskFn α)) (op : Bool) (s : State α) (c : Nat) :
    schedStep tasks op s c = s ∨
      ∃ w, w ∈ liveWorkers s ∧ schedStep tasks op s c = stepWorker tasks op s w := by
  unfold schedStep
  cases hl : liveWorkers s with
  | nil => exact Or.inl rfl
  | cons w l =>
    refine Or.inr ⟨(w :: l).getD (c % (l.length + 1)) w, ?_, rfl⟩
    have hlt : c % (l.length + 1) < (w :: l).length := by
      simp only [List.length_cons]
      exact Nat.mod_lt _ (Nat.succ_pos _)
    rw [List.getD_eq_getElem?_getD, List.getElem?_eq_getElem hlt]
    exact List.getElem_mem hlt

theorem potential_schedStep_lt (tasks : List (TaskFn α)) (op : Bool) (s : State α) (c : Nat)
    (h : isFinal s = false) : potential tasks (schedStep tasks op s c) < potential tasks s := by
  unfold isFinal at h
  unfold schedStep
  cases hl : liveWorkers s with
  | nil => simp [hl] at h
  | cons w l =>
    have hlt : c % (l.length + 1) < (w :: l).length := by
      simp only [List.length_cons]
      exact Nat.mod_lt _ (Nat.succ_pos _)
    have hmem : (w :: l).getD (c % (l.length + 1)) w ∈ liveWorkers s := by
      rw [hl, List.getD_eq_getElem?_getD, List.getElem?_eq_getElem hlt]
      exact List.getElem_mem hlt
    obtain ⟨ws, hws, hd⟩ := mem_liveWorkers.mp hmem
    exact potential_stepWorker_lt tasks op s _ ws hws hd

theorem potential_initState (tasks : List (TaskFn α)) (C : Int) :
    potential tasks (initState tasks C) = fuelBound tasks C := by
  simp [potential, initState, fuelBound, WState.weight]

theorem potential_stateAt (tasks : List (TaskFn α)) (C : Int) (op : Bool) (sched : Nat → Nat)
    (t : Nat) :
    isFinal (stateAt tasks C op sched t) = true ∨
      potential tasks (stateAt tasks C op sched t) + t ≤ fuelBound tasks C := by
  induction t with
  | zero => right; simp [stateAt, potential_initState]
  | succ t ih =>
    cases hf : isFinal (stateAt tasks C op sched t) with
    | true =>
      left
      simp only [stateAt]
      rw [schedStep_of_final tasks op _ _ hf]
      exact hf
    | false =>
      right
      rw [hf] at ih
      have hlt := potential_schedStep_lt tasks op _ (sched t) hf
      simp only [stateAt]
      rcases ih with ih | ih
      · cases ih
      · omega

/-- After `fuelBound` turns every worker has returned, whatever the schedule. -/
theorem isFinal_stateAt (tasks : List (TaskFn α)) (C : Int) (op : Bool) (sched : Nat → Nat)
    (t : Nat) (ht : fuelBound tasks C ≤ t) :
    isFinal (stateAt tasks C op sched t) = true := by
  rcases potential_stateAt tasks C op sched t with h | h
  · exact h
  · cases hf : isFinal (stateAt tasks C op sched t) with
    | true => rfl
    | false =>
      have := potential_schedStep_lt tasks op _ (sched t) hf
      omega

/-! ## Preservation of the invariant -/

theorem workerOk_frame {tasks : List (TaskFn α)} {s t : State α} {w : Nat} {ws : WState α}
    (h : WorkerOk tasks s w ws) (hnext : s.next ≤ t.next)
    (hframe : ∀ idx, ws.task = some idx →
      proj idx t.trace = proj idx s.trace ∧ t.results[idx]? = s.results[idx]?) :
    WorkerOk tasks t w ws := by
  cases ws with
  | ready => trivial
  | done => exact Nat.le_trans h hnext
  | awaiting idx a p =>
    obtain ⟨h1, h2, h3, h4, h5, h6⟩ := h
    obtain ⟨f1, f2⟩ := hframe idx rfl
    exact ⟨Nat.lt_of_lt_of_le h1 hnext, h2, f2.trans h3, f1.trans h4, h5, h6⟩
  | sleeping idx a =>
    obtain ⟨h1, h2, h3, h4, h5⟩ := h
    obtain ⟨f1, f2⟩ := hframe idx rfl
    exact ⟨Nat.lt_of_lt_of_le h1 hnext, h2, f2.trans h3, f1.trans h4, h5⟩

theorem settled_frame {tasks : List (TaskFn α)} {s t : State α} {idx : Nat}
    (h : Settled tasks s idx) (hp : proj idx t.trace = proj idx s.trace)
    (hr : t.results[idx]? = s.results[idx]?) : Settled tasks t idx := by
  obtain ⟨w, k, hk, hfail, h⟩ := h
  refine ⟨w, k, hk, hfail, ?_⟩
  rcases h with ⟨v, h1, h2, h3⟩ | ⟨h0, h1, h2, h3⟩
  · exact Or.inl ⟨v, h1, hr.trans h2, hp.trans h3⟩
  · exact Or.inr ⟨h0, h1, hr.trans h2, hp.trans h3⟩

theorem workerOk_held {tasks : List (TaskFn α)} {s : State α} {w idx : Nat} {ws : WState α}
    (h : WorkerOk tasks s w ws) (ht : ws.task = some idx) :
    idx < s.next ∧ s.results[idx]? = some none ∧
      ∃ rest, proj idx s.trace = Event.claim w idx :: rest ∧
        ∀ (u j : Nat) (v : Val α), Event.write u j v ∉ rest := by
  cases ws with
  | ready => simp [WState.task] at ht
  | done => simp [WState.task] at ht
  | awaiting i a p =>
    simp only [WState.task, Option.some.injEq] at ht
    subst ht
    obtain ⟨h1, _, h3, h4, _, _⟩ := h
    exact ⟨h1, h3, _, h4, fun u j v => not_write_mem_attemptsLog _ _ _ _ _⟩
  | sleeping i a =>
    simp only [WState.task, Option.some.injEq] at ht
    subst ht
    obtain ⟨h1, _, h3, h4, _⟩ := h
    refine ⟨h1, h3, _, h4, fun u j v => ?_⟩
    simp [not_write_mem_attemptsLog]

theorem held_unique {tasks : List (TaskFn α)} {s : State α} {w1 w2 idx : Nat}
    {ws1 ws2 : WState α} (h1 : WorkerOk tasks s w1 ws1) (h2 : WorkerOk tasks s w2 ws2)
    (t1 : ws1.task = some idx) (t2 : ws2.task = some idx) : w1 = w2 := by
  obtain ⟨_, _, r1, e1, _⟩ := workerOk_held h1 t1
  obtain ⟨_, _, r2, e2, _⟩ := workerOk_held h2 t2
  rw [e1] at e2
  simp only [List.cons.injEq, Event.claim.injEq] at e2
  exact e2.1.1

@[simp] theorem finishTask_next (tasks : List (TaskFn α)) (op : Bool) (s : State α) (w : Nat) :
    (finishTask tasks op s w).next = s.next := rfl

@[simp] theorem finishTask_completed (tasks : List (TaskFn α)) (op : Bool) (s : State α)
    (w : Nat) : (finishTask tasks op s w).completed = s.completed + 1 := rfl

@[simp] theorem finishTask_results (tasks : List (TaskFn α)) (op : Bool) (s : State α)
    (w : Nat) : (finishTask tasks op s w).results = s.results := rfl

@[simp] theorem finishTask_workers (tasks : List (TaskFn α)) (op : Bool) (s : State α)
    (w : Nat) : (finishTask tasks op s w).workers = s.workers.set w WState.ready := rfl

@[simp] theorem proj_finishTask (tasks : List (TaskFn α)) (op : Bool) (s : State α)
    (w idx : Nat) : proj idx (finishTask tasks op s w).trace = proj idx s.trace := by
  cases op <;> simp [finishTask, proj_cons, Event.task]

@[simp] theorem claimsOf_finishTask (tasks : List (TaskFn α)) (op : Bool) (s : State α)
    (w : Nat) : claimsOf (finishTask tasks op s w).trace = claimsOf s.trace := by
  cases op <;> simp [finishTask, claimsOf]

theorem progressOf_finishTask (tasks : List (TaskFn α)) (op : Bool) (s : State α)
    (w : Nat) : progressOf (finishTask tasks op s w).trace =
      if op then progressOf s.trace ++ [(s.completed + 1, tasks.length)]
      else progressOf s.trace := by
  cases op <;> simp [finishTask, progressOf]

/-- Assembling the invariant after worker `w` has moved from `ws` to `ws2`, touching only
task `i0`. -/
theorem inv_of_step {tasks : List (TaskFn α)} {C : Int} {op : Bool} {s t : State α}
    (hinv : Inv tasks C op s) (w i0 : Nat) (ws ws2 : WState α)
    (hws : s.workers[w]? = some ws)
    (hworkers : t.workers = s.workers.set w ws2)
    (hnext : s.next ≤ t.next) (hnextN : t.next ≤ tasks.length)
    (hreslen : t.results.length = s.results.length)
    (hframe : ∀ idx, idx ≠ i0 →
      proj idx t.trace = proj idx s.trace ∧ t.results[idx]? = s.results[idx]?)
    (hothers : ∀ (u : Nat) (us : WState α), u ≠ w → s.workers[u]? = some us →
      us.task ≠ some i0)
    (hws_task : ∀ idx, ws.task = some idx → idx = i0)
    (hself : WorkerOk tasks t w ws2)
    (hsettle : i0 < t.next → ws2.task ≠ some i0 → Settled tasks t i0)
    (hnew : ∀ idx, idx < t.next → s.next ≤ idx → idx = i0)
    (hun : t.next ≤ i0 → proj i0 t.trace = [] ∧ (i0 < tasks.length → t.results[i0]? = some none))
    (hbal : t.completed + running t = t.next)
    (hclaims : (claimsOf t.trace).map Prod.snd = List.range t.next)
    (hprog : progressOf t.trace =
      if op then (List.range t.completed).map (fun k => (k + 1, tasks.length)) else []) :
    Inv tasks C op t := by
  have hw : w < s.workers.length := by
    by_contra hcon
    rw [List.getElem?_eq_none (by omega)] at hws
    cases hws
  refine ⟨hnextN, hreslen.trans hinv.results_len, ?_, ?_, ?_, ?_, hbal, hclaims, hprog⟩
  · rw [hworkers, List.length_set]; exact hinv.workers_len
  · intro u us hus
    rw [hworkers, List.getElem?_set] at hus
    by_cases huw : w = u
    · subst huw
      simp only [hw, if_true, Option.some.injEq] at hus
      subst hus
      exact hself
    · simp only [huw, if_false] at hus
      refine workerOk_frame (hinv.worker_ok u us hus) hnext ?_
      intro idx hidx
      apply hframe
      intro hcon
      subst hcon
      exact hothers u us (Ne.symm huw) hus hidx
  · intro idx hidx hunheld
    by_cases hi : idx = i0
    · subst hi
      apply hsettle hidx
      apply hunheld w ws2
      rw [hworkers, List.getElem?_set]
      simp [hw]
    · have hlt : idx < s.next := by
        by_contra hcon
        exact hi (hnew idx hidx (by omega))
      have hun0 : Unheld s idx := by
        intro u us hus
        by_cases huw : u = w
        · subst huw
          rw [hws] at hus
          cases hus
          intro hcon
          exact hi (hws_task idx hcon)
        · apply hunheld u us
          rw [hworkers, List.getElem?_set_ne (Ne.symm huw)]
          exact hus
      obtain ⟨f1, f2⟩ := hframe idx hi
      exact settled_frame (hinv.settled idx hlt hun0) f1 f2
  · intro idx hidx
    by_cases hi : idx = i0
    · subst hi
      exact hun hidx
    · obtain ⟨f1, f2⟩ := hframe idx hi
      obtain ⟨u1, u2⟩ := hinv.unclaimed idx (by omega)
      exact ⟨f1.trans u1, fun h => f2.trans (u2 h)⟩

theorem lt_length_of_getElem? {β : Type} {l : List β} {i : Nat} {x : β}
    (h : l[i]? = some x) : i < l.length := by
  by_contra hcon
  rw [List.getElem?_eq_none (by omega)] at h
  cases h

theorem balance_of_set {s t : State α} {w : Nat} {y x : WState α}
    (h : s.workers[w]? = some y) (ht : t.workers = s.workers.set w x)
    (hb : s.completed + running s = s.next) (m n dc dn : Nat)
    (hy : (if y.task.isSome = true then 1 else 0) = m)
    (hx : (if x.task.isSome = true then 1 else 0) = n)
    (hc : t.completed = s.completed + dc) (hn : t.next = s.next + dn)
    (harith : dc + n = m + dn) : t.completed + running t = t.next := by
  have key := countP_set_add (fun (u : WState α) => u.task.isSome) s.workers w x y h
  beta_reduce at key
  rw [hy, hx] at key
  unfold running at hb ⊢
  rw [ht, hc, hn]
  omega

theorem inv_stepWorker {tasks : List (TaskFn α)} {C : Int} {op : Bool} {s : State α}
    (hinv : Inv tasks C op s) (w : Nat) : Inv tasks C op (stepWorker tasks op s w) := by
  unfold FetchEo.stepWorker
  cases hws : s.workers[w]? with
  | none => exact hinv
  | some ws =>
    have hok := hinv.worker_ok w ws hws
    have hbal0 := hinv.balance
    cases ws with
    | done => exact hinv
    | ready =>
      simp only
      split
      · rename_i hlt
        obtain ⟨u1, u2⟩ := hinv.unclaimed s.next (le_refl _)
        refine inv_of_step hinv w s.next WState.ready
          (WState.awaiting s.next 0 (invokeTask tasks s.next s.trace)) hws rfl
          (Nat.le_succ _) (Nat.succ_le_of_lt hlt) rfl ?_ ?_ ?_ ?_ ?_ ?_ ?_ ?_ ?_ ?_
        · intro idx hne
          have hne2 : ¬ s.next = idx := fun h => hne h.symm
          exact ⟨by simp [proj_cons, Event.task, hne2], rfl⟩
        · intro u us _ hus hcon
          have := (workerOk_held (hinv.worker_ok u us hus) hcon).1
          omega
        · intro idx h
          simp [WState.task] at h
        · refine ⟨Nat.lt_succ_self _, by decide, u2 hlt, ?_, ?_, ?_⟩
          · simp [proj_cons, Event.task, u1, attemptsLog]
          · have hc : callCount s.next s.trace = 0 := by
              rw [← callCount_proj, u1]; rfl
            simp [invokeTask, taskAt, hc]
          · intro j hj; omega
        · intro _ h
          exact absurd rfl h
        · intro idx h1 h2
          have : idx < s.next + 1 := h1
          omega
        · intro h
          have : s.next + 1 ≤ s.next := h
          omega
        · exact balance_of_set hws rfl hbal0 _ _ 0 1 rfl rfl rfl rfl rfl
        · simp [claimsOf, hinv.claims, List.range_succ]
        · simpa [progressOf] using hinv.progress
      · rename_i hge
        obtain ⟨u1, u2⟩ := hinv.unclaimed s.next (le_refl _)
        refine inv_of_step hinv w s.next WState.ready WState.done hws rfl
          (le_refl _) hinv.next_le rfl ?_ ?_ ?_ ?_ ?_ ?_ ?_ ?_ ?_ ?_
        · intro idx _
          exact ⟨rfl, rfl⟩
        · intro u us _ hus hcon
          have := (workerOk_held (hinv.worker_ok u us hus) hcon).1
          omega
        · intro idx h
          simp [WState.task] at h
        · show tasks.length ≤ s.next
          omega
        · intro h _
          have : s.next < s.next := h
          omega
        · intro idx h1 h2
          have : idx < s.next := h1
          omega
        · intro _
          exact ⟨u1, u2⟩
        · exact balance_of_set hws rfl hbal0 _ _ 0 0 rfl rfl rfl rfl rfl
        · exact hinv.claims
        · exact hinv.progress
    | awaiting idx a p =>
      obtain ⟨h1, h2, h3, h4, h5, h6⟩ := hok
      have hidx : idx < s.results.length := lt_length_of_getElem? h3
      have hothers : ∀ (u : Nat) (us : WState α), u ≠ w → s.workers[u]? = some us →
          us.task ≠ some idx := by
        intro u us hu hus hcon
        exact hu (held_unique (hinv.worker_ok u us hus) (hinv.worker_ok w _ hws) hcon rfl)
      have hwt : ∀ j, (WState.awaiting idx a p).task = some j → j = idx := by
        intro j h
        simp only [WState.task, Option.some.injEq] at h
        exact h.symm
      cases p with
      | ok v =>
        simp only
        refine inv_of_step hinv w idx _ WState.ready hws rfl
          (le_refl _) hinv.next_le (by simp) ?_ hothers hwt trivial ?_ ?_ ?_ ?_ ?_ ?_
        · intro j hne
          have hne2 : ¬ idx = j := fun h => hne h.symm
          exact ⟨by simp [proj_cons, Event.task, hne2], by simp [List.getElem?_set_ne hne2]⟩
        · intro _ _
          refine ⟨w, a, h2, h6, Or.inl ⟨v, h5.symm, ?_, ?_⟩⟩
          · simp [List.getElem?_set, hidx]
          · simp [proj_cons, Event.task, h4]
        · intro j g1 g2
          have : j < s.next := g1
          omega
        · intro h
          have : s.next ≤ idx := h
          omega
        · exact balance_of_set hws rfl hbal0 _ _ 1 0 rfl rfl rfl rfl rfl
        · simpa [claimsOf] using hinv.claims
        · rw [progressOf_finishTask]
          cases op <;> simp [progressOf, hinv.progress, List.range_succ]
      | fail =>
        simp only
        split
        · rename_i ha
          subst ha
          refine inv_of_step hinv w idx _ WState.ready hws rfl
            (le_refl _) hinv.next_le (by simp) ?_ hothers hwt trivial ?_ ?_ ?_ ?_ ?_ ?_
          · intro j hne
            have hne2 : ¬ idx = j := fun h => hne h.symm
            exact ⟨by simp [proj_cons, Event.task, hne2], by simp [List.getElem?_set_ne hne2]⟩
          · intro _ _
            refine ⟨w, 2, h2, h6, Or.inr ⟨rfl, h5.symm, ?_, ?_⟩⟩
            · simp [List.getElem?_set, hidx]
            · simp [proj_cons, Event.task, h4]
          · intro j g1 g2
            have : j < s.next := g1
            omega
          · intro h
            have : s.next ≤ idx := h
            omega
          · exact balance_of_set hws rfl hbal0 _ _ 1 0 rfl rfl rfl rfl rfl
          · simpa [claimsOf] using hinv.claims
          · rw [progressOf_finishTask]
            cases op <;> simp [progressOf, hinv.progress, List.range_succ]
        · rename_i ha
          refine inv_of_step hinv w idx _ (WState.sleeping idx a) hws rfl
            (le_refl _) hinv.next_le rfl ?_ hothers hwt ?_ ?_ ?_ ?_ ?_ ?_ ?_
          · intro j hne
            have hne2 : ¬ idx = j := fun h => hne h.symm
            exact ⟨by simp [proj_cons, Event.task, hne2], rfl⟩
          · refine ⟨h1, by omega, h3, ?_, ?_⟩
            · simp [proj_cons, Event.task, h4]
            · intro j hj
              rcases Nat.lt_or_ge j a with hja | hja
              · exact h6 j hja
              · have : j = a := by omega
                subst this
                exact h5.symm
          · intro _ h
            exact absurd rfl h
          · intro j g1 g2
            have : j < s.next := g1
            omega
          · intro h
            have : s.next ≤ idx := h
            omega
          · exact balance_of_set hws rfl hbal0 _ _ 0 0 rfl rfl rfl rfl rfl
          · simpa [claimsOf] using hinv.claims
          · simpa [progressOf] using hinv.progress
    | sleeping idx a =>
      obtain ⟨h1, h2, h3, h4, h5⟩ := hok
      have hothers : ∀ (u : Nat) (us : WState α), u ≠ w → s.workers[u]? = some us →
          us.task ≠ some idx := by
        intro u us hu hus hcon
        exact hu (held_unique (hinv.worker_ok u us hus) (hinv.worker_ok w _ hws) hcon rfl)
      have hwt : ∀ j, (WState.sleeping idx a : WState α).task = some j → j = idx := by
        intro j h
        simp only [WState.task, Option.some.injEq] at h
        exact h.symm
      simp only
      split
      · refine inv_of_step hinv w idx _
            (WState.awaiting idx (a + 1) (invokeTask tasks idx s.trace)) hws rfl
            (le_refl _) hinv.next_le rfl ?_ hothers hwt ?_ ?_ ?_ ?_ ?_ ?_ ?_
        · intro j hne
          have hne2 : ¬ idx = j := fun h => hne h.symm
          exact ⟨by simp [proj_cons, Event.task, hne2], rfl⟩
        · refine ⟨h1, by omega, h3, ?_, ?_, ?_⟩
          · simp [proj_cons, Event.task, h4, attemptsLog]
          · have hc : callCount idx s.trace = a + 1 := by
              rw [← callCount_proj, h4]
              have := callCount_attemptsLog (α := α) idx a
              simp only [callCount] at this ⊢
              simp [List.countP_cons, Event.isCall, this]
            simp [invokeTask, taskAt, hc]
          · intro j hj
            exact h5 j (by omega)
        · intro _ h
          exact absurd rfl h
        · intro j g1 g2
          have : j < s.next := g1
          omega
        · intro h
          have : s.next ≤ idx := h
          omega
        · exact balance_of_set hws rfl hbal0 _ _ 0 0 rfl rfl rfl rfl rfl
        · simpa [claimsOf] using hinv.claims
        · simpa [progressOf] using hinv.progress
      · omega

theorem inv_initState (tasks : List (TaskFn α)) (C : Int) (op : Bool) :
    Inv tasks C op (initState tasks C) := by
  refine ⟨Nat.zero_le _, by simp [FetchEo.initState], by simp [FetchEo.initState], ?_, ?_, ?_,
    ?_, rfl, ?_⟩
  · intro w ws hws
    simp only [FetchEo.initState, List.getElem?_replicate] at hws
    split at hws
    · cases hws
      trivial
    · cases hws
  · intro idx hidx
    simp [FetchEo.initState] at hidx
  · intro idx _
    refine ⟨rfl, fun h => ?_⟩
    simp [FetchEo.initState, List.getElem?_replicate, h]
  · simp [FetchEo.initState, running, List.countP_replicate, WState.task]
  · cases op <;> simp [FetchEo.initState, progressOf]

theorem inv_schedStep {tasks : List (TaskFn α)} {C : Int} {op : Bool} {s : State α}
    (hinv : Inv tasks C op s) (c : Nat) : Inv tasks C op (schedStep tasks op s c) := by
  rcases schedStep_eq_stepWorker tasks op s c with h | ⟨w, _, h⟩
  · rw [h]; exact hinv
  · rw [h]; exact inv_stepWorker hinv w

/-- The invariant holds in every state of every run. -/
theorem inv_stateAt (tasks : List (TaskFn α)) (C : Int) (op : Bool) (sched : Nat → Nat)
    (t : Nat) : Inv tasks C op (stateAt tasks C op sched t) := by
  induction t with
  | zero => exact inv_initState tasks C op
  | succ t ih => exact inv_schedStep ih (sched t)

/-! ## Final states -/

theorem final_done {s : State α} (hf : isFinal s = true) (w : Nat) (ws : WState α)
    (hws : s.workers[w]? = some ws) : ws = WState.done := by
  have hnil : liveWorkers s = [] := by
    unfold isFinal at hf
    exact List.isEmpty_iff.mp hf
  have hnot : w ∉ liveWorkers s := by rw [hnil]; simp
  cases ws with
  | done => rfl
  | ready => exact absurd (mem_liveWorkers.mpr ⟨_, hws, rfl⟩) hnot
  | awaiting i a p => exact absurd (mem_liveWorkers.mpr ⟨_, hws, rfl⟩) hnot
  | sleeping i a => exact absurd (mem_liveWorkers.mpr ⟨_, hws, rfl⟩) hnot

theorem final_unheld {s : State α} (hf : isFinal s = true) (idx : Nat) : Unheld s idx := by
  intro w ws hws
  rw [final_done hf w ws hws]
  simp [WState.task]

theorem final_running {s : State α} (hf : isFinal s = true) : running s = 0 := by
  unfold running
  rw [List.countP_eq_zero]
  intro ws hmem
  obtain ⟨w, hw, rfl⟩ := List.getElem_of_mem hmem
  rw [final_done hf w _ (List.getElem?_eq_getElem hw)]
  simp [WState.task]

theorem workerCount_pos (tasks : List (TaskFn α)) (C : Int) (hC : 1 ≤ C)
    (hN : 0 < tasks.length) : 0 < workerCount tasks C := by
  unfold workerCount
  have : (1 : Int) ≤ min C (tasks.length : Int) := by
    apply le_min hC
    omega
  omega

theorem inv_final_next {tasks : List (TaskFn α)} {C : Int} {op : Bool} {s : State α}
    (hinv : Inv tasks C op s) (hf : isFinal s = true) (hC : 1 ≤ C) :
    s.next = tasks.length := by
  rcases Nat.eq_zero_or_pos tasks.length with h0 | hpos
  · have := hinv.next_le
    omega
  · have hw : 0 < s.workers.length := by
      rw [hinv.workers_len]
      exact workerCount_pos tasks C hC hpos
    have hws : s.workers[0]? = some s.workers[0] := List.getElem?_eq_getElem hw
    have hd := final_done hf 0 _ hws
    have hok := hinv.worker_ok 0 _ hws
    rw [hd] at hok
    have h1 : tasks.length ≤ s.next := hok
    have := hinv.next_le
    omega

/-- With at least one worker allowed, every run ends within `fuelBound` turns in a state
where every task has reached its terminal status. -/
theorem run_ends (tasks : List (TaskFn α)) (C : Int) (op : Bool) (sched : Nat → Nat)
    (fuel : Nat) (hC : 1 ≤ C) (hfuel : fuelBound tasks C ≤ fuel) :
    ∃ s, runPoolState tasks C op sched fuel = some s ∧
      runPool tasks C op sched fuel = some s.results ∧
      Inv tasks C op s ∧ isFinal s = true ∧
      s.next = tasks.length ∧ s.completed = tasks.length ∧
      ∀ idx, idx < tasks.length → Settled tasks s idx := by
  have hf := isFinal_stateAt tasks C op sched fuel hfuel
  have hinv := inv_stateAt tasks C op sched fuel
  have hnext := inv_final_next hinv hf hC
  refine ⟨stateAt tasks C op sched fuel, ?_, ?_, hinv, hf, hnext, ?_, ?_⟩
  · simp [runPoolState, hf]
  · simp [runPool, runPoolState, hf]
  · have := hinv.balance
    rw [final_running hf] at this
    omega
  · intro idx hidx
    exact hinv.settled idx (by omega) (final_unheld hf idx)

theorem taskAt_eq {tasks : List (TaskFn α)} {i : Nat} {t : TaskFn α}
    (h : tasks[i]? = some t) : taskAt tasks i = t := by
  simp [taskAt, h]

/-- Readout of a settled task that fails `k` times and then succeeds. -/
theorem settled_of_success {tasks : List (TaskFn α)} {s : State α} {i k : Nat} {v : Val α}
    (h : Settled tasks s i) (hk : k < 3)
    (hfail : ∀ j, j < k → (taskAt tasks i).invoke j = Outcome.fail)
    (hok : (taskAt tasks i).invoke k = Outcome.ok v) :
    ∃ w, s.results[i]? = some (some v) ∧
      proj i s.trace = Event.claim w i :: (attemptsLog i k ++ [Event.write w i v]) := by
  obtain ⟨w, k2, hk2, hfail2, h⟩ := h
  rcases h with ⟨v2, h1, h2, h3⟩ | ⟨h0, h1, h2, h3⟩
  · have hkk : k2 = k := by
      rcases Nat.lt_trichotomy k2 k with hlt | heq | hgt
      · rw [hfail k2 hlt] at h1; cases h1
      · exact heq
      · rw [hfail2 k hgt] at hok; cases hok
    subst hkk
    rw [hok] at h1
    cases h1
    exact ⟨w, h2, h3⟩
  · subst h0
    exfalso
    rcases Nat.lt_or_ge k 2 with hlt | hge
    · rw [hfail2 k hlt] at hok; cases hok
    · have : k = 2 := by omega
      subst this
      rw [h1] at hok; cases hok

/-- Readout of a settled task whose first three invocations fail. -/
theorem settled_of_failure {tasks : List (TaskFn α)} {s : State α} {i : Nat}
    (h : Settled tasks s i)
    (hfail : ∀ j, j < 3 → (taskAt tasks i).invoke j = Outcome.fail) :
    ∃ w, s.results[i]? = some (some Val.null) ∧
      proj i s.trace =
        Event.claim w i :: (attemptsLog i 2 ++ [Event.write w i Val.null, Event.warn i]) := by
  obtain ⟨w, k2, hk2, hfail2, h⟩ := h
  rcases h with ⟨v2, h1, h2, h3⟩ | ⟨h0, h1, h2, h3⟩
  · rw [hfail k2 hk2] at h1; cases h1
  · exact ⟨w, h2, h3⟩

/-! ## Retry and failure of a single task -/

/-- C1: with concurrency at least 1, a task at index `i` that fails on its first `k < 3`
invocations and succeeds on invocation `k + 1` with value `v` ends with `results[i] = v`
and has been invoked exactly `k + 1` times when `runPool` returns, for every schedule of
the workers and whatever the other tasks do; and `runPool` does return. -/
theorem runPool_retry_then_success (tasks : List (TaskFn α)) (C : Int) (onProgress : Bool)
    (sched : Nat → Nat) (fuel i k : Nat) (t : TaskFn α) (v : Val α)
    (hC : 1 ≤ C) (hi : tasks[i]? = some t) (hk : k < 3)
    (hfail : ∀ j, j < k → t.invoke j = Outcome.fail)
    (hok : t.invoke k = Outcome.ok v)
    (hfuel : fuelBound tasks C ≤ fuel) :
    ∃ s, runPoolState tasks C onProgress sched fuel = some s ∧
      runPool tasks C onProgress sched fuel = some s.results ∧
      s.results[i]? = some (some v) ∧
      callCount i s.trace = k + 1 := by
  obtain ⟨s, hs, hr, _, _, _, _, hset⟩ := run_ends tasks C onProgress sched fuel hC hfuel
  have hlt : i < tasks.length := lt_length_of_getElem? hi
  have ht := taskAt_eq hi
  obtain ⟨w, h1, h2⟩ := settled_of_success (hset i hlt) hk (by rw [ht]; exact hfail) (by rw [ht]; exact hok)
  refine ⟨s, hs, hr, h1, ?_⟩
  rw [← callCount_proj, h2]
  have := callCount_attemptsLog (α := α) i k
  simp only [callCount] at this ⊢
  simp [List.countP_cons, Event.isCall, this]

theorem runPool_retry_then_success_witness :
    ∃ s, runPoolState retryTasks 2 true rotate 37 = some s ∧
      runPool retryTasks 2 true rotate 37 = some s.results ∧
      s.results[2]? = some (some (Val.data "x")) ∧
      callCount 2 s.trace = 2 + 1 :=
  runPool_retry_then_success retryTasks 2 true rotate 37 2 2
    (TaskFn.callable (fun n => if n < 2 then Outcome.fail else Outcome.ok (Val.data "x")))
    (Val.data "x") (by decide) rfl (by decide)
    (by intro j hj; interval_cases j <;> rfl) rfl (by decide)

theorem run_exhausted (tasks : List (TaskFn α)) (C : Int) (onProgress : Bool)
    (sched : Nat → Nat) (fuel i : Nat) (t : TaskFn α)
    (hC : 1 ≤ C) (hi : tasks[i]? = some t)
    (hfail : ∀ n, n < 3 → t.invoke n = Outcome.fail)
    (hfuel : fuelBound tasks C ≤ fuel) :
    ∃ s, runPoolState tasks C onProgress sched fuel = some s ∧
      runPool tasks C onProgress sched fuel = some s.results ∧
      callCount i s.trace = 3 ∧
      s.results[i]? = some (some Val.null) ∧
      warnCount i s.trace = 1 ∧
      attemptsOf i s.trace = attemptsLog i 2 ∧
      sleepsFor i s.trace = [500, 1000] := by
  obtain ⟨s, hs, hr, _, _, _, _, hset⟩ := run_ends tasks C onProgress sched fuel hC hfuel
  have hlt : i < tasks.length := lt_length_of_getElem? hi
  have ht := taskAt_eq hi
  obtain ⟨w, h1, h2⟩ := settled_of_failure (hset i hlt) (by rw [ht]; exact hfail)
  refine ⟨s, hs, hr, ?_, h1, ?_, ?_, ?_⟩
  · rw [← callCount_proj, h2]
    simp [callCount, attemptsLog, List.countP_cons, Event.isCall]
  · rw [← warnCount_proj, h2]
    simp [warnCount, attemptsLog, List.countP_cons, Event.isWarn]
  · rw [← attemptsOf_proj, h2]
    simp [attemptsOf, attemptsLog, List.filter_cons, Event.isAttempt]
  · rw [sleepsFor_proj, h2]
    simp [attemptsLog, sleepsOf]

theorem stateAt_no_workers (tasks : List (TaskFn α)) (C : Int) (op : Bool)
    (sched : Nat → Nat) (t : Nat) (h : workerCount tasks C = 0) :
    stateAt tasks C op sched t = initState tasks C ∧
      isFinal (initState tasks C) = true := by
  have hf : isFinal (initState tasks C) = true := by
    simp [isFinal, liveWorkers, initState, h]
  refine ⟨?_, hf⟩
  induction t with
  | zero => rfl
  | succ t ih =>
    simp only [stateAt]
    rw [ih]
    exact schedStep_of_final tasks op _ _ hf

/-- C2: with concurrency at least 1, a task at index `i` whose every invocation fails is
invoked exactly 3 times, `results[i]` is `null` when `runPool` returns, exactly one warning
is emitted for `i`, and `runPool` returns normally, for every schedule. -/
theorem runPool_exhausted (tasks : List (TaskFn α)) (C : Int) (onProgress : Bool)
    (sched : Nat → Nat) (fuel i : Nat) (t : TaskFn α)
    (hC : 1 ≤ C) (hi : tasks[i]? = some t)
    (hfail : ∀ n, t.invoke n = Outcome.fail)
    (hfuel : fuelBound tasks C ≤ fuel) :
    ∃ s, runPoolState tasks C onProgress sched fuel = some s ∧
      runPool tasks C onProgress sched fuel = some s.results ∧
      callCount i s.trace = 3 ∧
      s.results[i]? = some (some Val.null) ∧
      warnCount i s.trace = 1 := by
  obtain ⟨s, h1, h2, h3, h4, h5, _⟩ :=
    run_exhausted tasks C onProgress sched fuel i t hC hi (fun n _ => hfail n) hfuel
  exact ⟨s, h1, h2, h3, h4, h5⟩

theorem runPool_exhausted_witness :
    ∃ s, runPoolState brokenTasks 5 true firstLive 24 = some s ∧
      runPool brokenTasks 5 true firstLive 24 = some s.results ∧
      callCount 1 s.trace = 3 ∧
      s.results[1]? = some (some Val.null) ∧
      warnCount 1 s.trace = 1 :=
  runPool_exhausted brokenTasks 5 true firstLive 24 1
    (TaskFn.callable (fun _ => Outcome.fail)) (by decide) rfl (fun _ => rfl) (by decide)

/-! ## Inputs that the specification calls invalid -/

/-- C3 fails as stated: with `concurrency = 0` the call returns a result list (of unset
slots), and with a non-callable entry it returns a result list with `null` at that
index.  The function has no `throw` and no validation, so no path rejects. -/
theorem runPool_rejects_counterexample :
    runPool oddTasks 0 true firstLive 0 = some [none, none] ∧
    runPool oddTasks 1 true firstLive 9 = some [some (Val.data "a"), some Val.null] := by
  decide

/-- C3, amended: `runPool` does not validate its inputs.  With `concurrency ≤ 0` it starts
no worker, evaluates no task and returns at once a list of `tasks.length` unset slots.
With concurrency at least 1, an entry that is not callable is handled like a failing
task: the call is attempted 3 times, `results[i]` is `null`, one warning is emitted, and
`runPool` returns normally. -/
theorem runPool_invalid_inputs (tasks : List (TaskFn α)) (C : Int) (onProgress : Bool)
    (sched : Nat → Nat) (fuel i : Nat) :
    (C ≤ 0 →
      ∃ s, runPoolState tasks C onProgress sched fuel = some s ∧
        runPool tasks C onProgress sched fuel = some (List.replicate tasks.length none) ∧
        s.workers = [] ∧ s.trace = []) ∧
    (1 ≤ C → fuelBound tasks C ≤ fuel → tasks[i]? = some TaskFn.notCallable →
      ∃ s, runPoolState tasks C onProgress sched fuel = some s ∧
        runPool tasks C onProgress sched fuel = some s.results ∧
        callCount i s.trace = 3 ∧
        s.results[i]? = some (some Val.null) ∧
        warnCount i s.trace = 1) := by
  constructor
  · intro hC
    have hw : workerCount tasks C = 0 := by
      unfold workerCount
      have : min C (tasks.length : Int) ≤ 0 := le_trans (min_le_left _ _) hC
      omega
    obtain ⟨h1, h2⟩ := stateAt_no_workers tasks C onProgress sched fuel hw
    refine ⟨initState tasks C, ?_, ?_, ?_, rfl⟩
    · simp [runPoolState, h1, h2]
    · simp only [runPool, runPoolState, h1, h2, if_true, Option.map_some']
      rfl
    · simp [initState, hw]
  · intro hC hfuel hi
    obtain ⟨s, h1, h2, h3, h4, h5, _⟩ :=
      run_exhausted tasks C onProgress sched fuel i TaskFn.notCallable hC hi
        (fun _ _ => rfl) hfuel
    exact ⟨s, h1, h2, h3, h4, h5⟩

theorem runPool_invalid_inputs_witness :
    (∃ s, runPoolState oddTasks 0 true firstLive 0 = some s ∧
        runPool oddTasks 0 true firstLive 0 = some (List.replicate oddTasks.length none) ∧
        s.workers = [] ∧ s.trace = []) ∧
    (∃ s, runPoolState oddTasks 1 true firstLive 15 = some s ∧
        runPool oddTasks 1 true firstLive 15 = some s.results ∧
        callCount 1 s.trace = 3 ∧
        s.results[1]? = some (some Val.null) ∧
        warnCount 1 s.trace = 1) :=
  ⟨(runPool_invalid_inputs oddTasks 0 true firstLive 0 1).1 (by decide),
   (runPool_invalid_inputs oddTasks 1 true firstLive 15 1).2 (by decide) (by decide) rfl⟩

/-! ## Progress reports -/

/-- C4: with concurrency at least 1 and an `onProgress` callback, one run on `N` tasks
calls it exactly `N` times, the `k`-th call with `(k, N)`: the calls are
`(1, N), (2, N), ..., (N, N)` in this order (none for `N = 0`), for every schedule; and at
every moment of the run the calls made so far are `(1, N), ..., (completed, N)`. -/
theorem runPool_progress (tasks : List (TaskFn α)) (C : Int) (sched : Nat → Nat) (fuel : Nat)
    (hC : 1 ≤ C) (hfuel : fuelBound tasks C ≤ fuel) :
    (∃ s, runPoolState tasks C true sched fuel = some s ∧
      progressOf s.trace = (List.range tasks.length).map (fun k => (k + 1, tasks.length)) ∧
      (progressOf s.trace).length = tasks.length) ∧
    ∀ t, progressOf (stateAt tasks C true sched t).trace =
      (List.range (stateAt tasks C true sched t).completed).map
        (fun k => (k + 1, tasks.length)) := by
  constructor
  · obtain ⟨s, hs, _, hinv, _, _, hcomp, _⟩ := run_ends tasks C true sched fuel hC hfuel
    have hp := hinv.progress
    rw [hcomp] at hp
    simp only [if_true] at hp
    exact ⟨s, hs, hp, by rw [hp]; simp⟩
  · intro t
    have hp := (inv_stateAt tasks C true sched t).progress
    simpa using hp

theorem runPool_progress_witness :
    (∃ s, runPoolState retryTasks 2 true rotate 37 = some s ∧
      progressOf s.trace =
        (List.range retryTasks.length).map (fun k => (k + 1, retryTasks.length)) ∧
      (progressOf s.trace).length = retryTasks.length) ∧
    ∀ t, progressOf (stateAt retryTasks 2 true rotate t).trace =
      (List.range (stateAt retryTasks 2 true rotate t).completed).map
        (fun k => (k + 1, retryTasks.length)) :=
  runPool_progress retryTasks 2 rotate 37 (by decide) (by decide)

/-! ## Concurrency bound -/

theorem workerCount_eq_min (tasks : List (TaskFn α)) (C : Int) (hC : 1 ≤ C) :
    (workerCount tasks C : Int) = min C (tasks.length : Int) := by
  unfold workerCount
  have : (0 : Int) ≤ min C (tasks.length : Int) := by
    apply le_min <;> omega
  omega

theorem held_iff_pending {tasks : List (TaskFn α)} {C : Int} {op : Bool} {s : State α}
    (hinv : Inv tasks C op s) (idx : Nat) :
    (idx < s.next ∧ s.results[idx]? = some none) ↔
      ∃ (w : Nat) (ws : WState α), s.workers[w]? = some ws ∧ ws.task = some idx := by
  constructor
  · rintro ⟨hlt, hres⟩
    by_contra hcon
    have hun : Unheld s idx := by
      intro w ws hws ht
      exact hcon ⟨w, ws, hws, ht⟩
    obtain ⟨w, k, _, _, h⟩ := hinv.settled idx hlt hun
    rcases h with ⟨v, _, h2, _⟩ | ⟨_, _, h2, _⟩
    · rw [hres] at h2; cases h2
    · rw [hres] at h2; cases h2
  · rintro ⟨w, ws, hws, ht⟩
    obtain ⟨h1, h2, _⟩ := workerOk_held (hinv.worker_ok w ws hws) ht
    exact ⟨h1, h2⟩

/-- C5: with concurrency `C ≥ 1`, exactly `min(C, N)` workers are started, and in every
state `s` of every run the number of tasks that are claimed but not yet terminal (the
workers inside an attempt or a backoff wait, each holding a task of its own) is at most
`min(C, N)`; it equals `next - completed`, and these tasks are exactly the claimed indices
whose result slot is still unset. -/
theorem runPool_concurrency_bound (tasks : List (TaskFn α)) (C : Int) (onProgress : Bool)
    (sched : Nat → Nat) (t : Nat) (s : State α)
    (hC : 1 ≤ C) (hs : s = stateAt tasks C onProgress sched t) :
    s.workers.length = workerCount tasks C ∧
    (workerCount tasks C : Int) = min C (tasks.length : Int) ∧
    running s ≤ workerCount tasks C ∧
    s.completed + running s = s.next ∧
    (∀ idx, (idx < s.next ∧ s.results[idx]? = some none) ↔
      ∃ (w : Nat) (ws : WState α), s.workers[w]? = some ws ∧ ws.task = some idx) ∧
    (∀ (w1 w2 idx : Nat) (ws1 ws2 : WState α), s.workers[w1]? = some ws1 →
      s.workers[w2]? = some ws2 → ws1.task = some idx → ws2.task = some idx → w1 = w2) := by
  subst hs
  have hinv := inv_stateAt tasks C onProgress sched t
  refine ⟨hinv.workers_len, workerCount_eq_min tasks C hC, ?_, hinv.balance,
    held_iff_pending hinv, ?_⟩
  · rw [← hinv.workers_len]
    exact List.countP_le_length _
  · intro w1 w2 idx ws1 ws2 h1 h2 t1 t2
    exact held_unique (hinv.worker_ok w1 ws1 h1) (hinv.worker_ok w2 ws2 h2) t1 t2

theorem runPool_concurrency_bound_witness :
    (stateAt retryTasks 2 true rotate 6).workers.length = workerCount retryTasks 2 ∧
    (workerCount retryTasks 2 : Int) = min 2 (retryTasks.length : Int) ∧
    running (stateAt retryTasks 2 true rotate 6) ≤ workerCount retryTasks 2 ∧
    (stateAt retryTasks 2 true rotate 6).completed + running (stateAt retryTasks 2 true rotate 6)
      = (stateAt retryTasks 2 true rotate 6).next ∧
    (∀ idx, (idx < (stateAt retryTasks 2 true rotate 6).next ∧
        (stateAt retryTasks 2 true rotate 6).results[idx]? = some none) ↔
      ∃ (w : Nat) (ws : WState String),
        (stateAt retryTasks 2 true rotate 6).workers[w]? = some ws ∧ ws.task = some idx) ∧
    (∀ (w1 w2 idx : Nat) (ws1 ws2 : WState String),
      (stateAt retryTasks 2 true rotate 6).workers[w1]? = some ws1 →
      (stateAt retryTasks 2 true rotate 6).workers[w2]? = some ws2 →
      ws1.task = some idx → ws2.task = some idx → w1 = w2) :=
  runPool_concurrency_bound retryTasks 2 true rotate 6 _ (by decide) rfl

/-! ## Shape of the result -/

/-- C6: with concurrency at least 1, `runPool` returns a list of exactly `tasks.length`
entries, for every schedule; for the empty task list it returns the empty list at once,
without starting a worker or evaluating a task. -/
theorem runPool_length (tasks : List (TaskFn α)) (C : Int) (onProgress : Bool)
    (sched : Nat → Nat) (fuel : Nat) (hC : 1 ≤ C) :
    (fuelBound tasks C ≤ fuel →
      ∃ r, runPool tasks C onProgress sched fuel = some r ∧ r.length = tasks.length) ∧
    (tasks = [] →
      ∃ s, runPoolState tasks C onProgress sched fuel = some s ∧
        runPool tasks C onProgress sched fuel = some [] ∧
        s.workers = [] ∧ s.trace = []) := by
  constructor
  · intro hfuel
    obtain ⟨s, _, hr, hinv, _⟩ := run_ends tasks C onProgress sched fuel hC hfuel
    exact ⟨s.results, hr, hinv.results_len⟩
  · intro hnil
    subst hnil
    have hw : workerCount ([] : List (TaskFn α)) C = 0 := by
      unfold workerCount
      have : min C ((([] : List (TaskFn α)).length : Nat) : Int) ≤ 0 := min_le_right _ _
      omega
    obtain ⟨h1, h2⟩ := stateAt_no_workers [] C onProgress sched fuel hw
    refine ⟨initState [] C, ?_, ?_, ?_, rfl⟩
    · simp [runPoolState, h1, h2]
    · simp only [runPool, runPoolState, h1, h2, if_true, Option.map_some']
      rfl
    · simp [initState, hw]

theorem runPool_length_witness :
    (∃ r, runPool retryTasks 3 false rotate 38 = some r ∧ r.length = retryTasks.length) ∧
    (∃ s, runPoolState ([] : List (TaskFn String)) 3 true rotate 0 = some s ∧
        runPool ([] : List (TaskFn String)) 3 true rotate 0 = some [] ∧
        s.workers = [] ∧ s.trace = []) :=
  ⟨(runPool_length retryTasks 3 false rotate 38 (by decide)).1 (by decide),
   (runPool_length [] 3 true rotate 0 (by decide)).2 rfl⟩

/-! ## Positional determinism -/

theorem run_never_fail (tasks : List (TaskFn α)) (C : Int) (op : Bool)
    (sched : Nat → Nat) (fuel : Nat) (hC : 1 ≤ C) (hfuel : fuelBound tasks C ≤ fuel)
    (hnever : ∀ t, t ∈ tasks → ∀ n, t.invoke n ≠ Outcome.fail) :
    runPool tasks C op sched fuel = some (sequentialRun tasks) := by
  obtain ⟨s, _, hr, hinv, _, _, _, hset⟩ := run_ends tasks C op sched fuel hC hfuel
  rw [hr]
  congr 1
  apply List.ext_getElem?
  intro i
  by_cases hi : i < tasks.length
  · have hti : tasks[i]? = some tasks[i] := List.getElem?_eq_getElem hi
    have ht := taskAt_eq hti
    have hmem : tasks[i] ∈ tasks := List.getElem_mem hi
    cases hv : (tasks[i]).invoke 0 with
    | fail => exact absurd hv (hnever _ hmem 0)
    | ok v =>
      obtain ⟨w, h1, _⟩ := settled_of_success (k := 0) (v := v) (hset i hi) (by decide)
        (by intro j hj; omega) (by rw [ht]; exact hv)
      rw [h1]
      simp [sequentialRun, hti, producedValue, hv]
  · rw [List.getElem?_eq_none (by rw [hinv.results_len]; omega),
      List.getElem?_eq_none (by simp [sequentialRun]; omega)]

/-- C7: for tasks that never fail and concurrency at least 1, `runPool` returns, for every
schedule, the list whose entry `i` is the value produced by task `i`: the list obtained by
running the tasks one after the other in index order.  Hence the result is the same for
every concurrency `≥ 1` and every schedule. -/
theorem runPool_positional (tasks : List (TaskFn α)) (C : Int) (onProgress : Bool)
    (sched : Nat → Nat) (fuel : Nat) (hC : 1 ≤ C) (hfuel : fuelBound tasks C ≤ fuel)
    (hnever : ∀ t, t ∈ tasks → ∀ n, t.invoke n ≠ Outcome.fail) :
    runPool tasks C onProgress sched fuel = some (sequentialRun tasks) ∧
    (∀ (i : Nat) (t : TaskFn α), tasks[i]? = some t →
      ∃ v, t.invoke 0 = Outcome.ok v ∧ (sequentialRun tasks)[i]? = some (some v)) ∧
    (∀ (C2 : Int) (op2 : Bool) (sched2 : Nat → Nat) (fuel2 : Nat), 1 ≤ C2 →
      fuelBound tasks C2 ≤ fuel2 →
      runPool tasks C2 op2 sched2 fuel2 = runPool tasks C onProgress sched fuel) := by
  have h1 := run_never_fail tasks C onProgress sched fuel hC hfuel hnever
  refine ⟨h1, ?_, ?_⟩
  · intro i t hi
    have hlt : i < tasks.length := lt_length_of_getElem? hi
    have hmem : t ∈ tasks := List.getElem?_mem hi
    cases hv : t.invoke 0 with
    | fail => exact absurd hv (hnever _ hmem 0)
    | ok v =>
      exact ⟨v, rfl, by simp [sequentialRun, hi, producedValue, hv]⟩
  · intro C2 op2 sched2 fuel2 hC2 hfuel2
    rw [h1, run_never_fail tasks C2 op2 sched2 fuel2 hC2 hfuel2 hnever]

theorem runPool_positional_witness :
    runPool steadyTasks 2 true rotate 23 = some (sequentialRun steadyTasks) ∧
    (∀ (i : Nat) (t : TaskFn String), steadyTasks[i]? = some t →
      ∃ v, t.invoke 0 = Outcome.ok v ∧ (sequentialRun steadyTasks)[i]? = some (some v)) ∧
    (∀ (C2 : Int) (op2 : Bool) (sched2 : Nat → Nat) (fuel2 : Nat), 1 ≤ C2 →
      fuelBound steadyTasks C2 ≤ fuel2 →
      runPool steadyTasks C2 op2 sched2 fuel2 = runPool steadyTasks 2 true rotate 23) :=
  runPool_positional steadyTasks 2 true rotate 23 (by decide) (by decide)
    (by
      intro t ht n
      simp only [steadyTasks, List.mem_cons, List.mem_singleton, List.not_mem_nil,
        or_false] at ht
      rcases ht with rfl | rfl | rfl <;> simp [TaskFn.invoke])

/-! ## Claims and writes -/

theorem mem_claimsOf {w i : Nat} {tr : List (Event α)} :
    (w, i) ∈ claimsOf tr ↔ Event.claim w i ∈ tr := by
  induction tr with
  | nil => simp [claimsOf]
  | cons e l ih => cases e <;> simp [claimsOf, ih]

theorem writeCount_eq_zero {i : Nat} {l : List (Event α)}
    (h : ∀ (u : Nat) (v : Val α), Event.write u i v ∉ l) : writeCount i l = 0 := by
  unfold writeCount
  rw [List.countP_eq_zero]
  intro e he
  cases e with
  | write u j v =>
    by_cases hj : j = i
    · subst hj
      exact absurd he (h u v)
    · simp [Event.isWrite, hj]
  | claim _ _ => simp [Event.isWrite]
  | call _ => simp [Event.isWrite]
  | sleep _ _ => simp [Event.isWrite]
  | warn _ => simp [Event.isWrite]
  | progress _ _ => simp [Event.isWrite]

theorem mem_trace_write {i u : Nat} {v : Val α} {tr : List (Event α)} :
    Event.write u i v ∈ tr ↔ Event.write u i v ∈ proj i tr := by
  rw [mem_proj]
  simp [Event.task]

theorem settled_writes {tasks : List (TaskFn α)} {s : State α} {i : Nat}
    (h : Settled tasks s i) :
    (∃ v, s.results[i]? = some (some v)) ∧ writeCount i s.trace = 1 ∧
      ∀ (u : Nat) (v : Val α), Event.write u i v ∈ s.trace → Event.claim u i ∈ s.trace := by
  obtain ⟨w, k, _, _, h⟩ := h
  have hc : Event.claim w i ∈ proj i s.trace → Event.claim w i ∈ s.trace :=
    fun hm => (mem_proj.mp hm).1
  have hz := writeCount_attemptsLog (α := α) i k
  have hn := fun (u : Nat) (v : Val α) => not_write_mem_attemptsLog (α := α) i k u i v
  rcases h with ⟨v, _, h2, h3⟩ | ⟨h0, _, h2, h3⟩
  · refine ⟨⟨v, h2⟩, ?_, ?_⟩
    · rw [← writeCount_proj, h3]
      simp only [writeCount] at hz ⊢
      simp [List.countP_cons, Event.isWrite, hz]
    · intro u x hmem
      rw [mem_trace_write, h3] at hmem
      have hu : u = w := by
        simp [hn] at hmem
        exact hmem.1
      subst hu
      exact hc (by rw [h3]; simp)
  · subst h0
    refine ⟨⟨Val.null, h2⟩, ?_, ?_⟩
    · rw [← writeCount_proj, h3]
      simp only [writeCount] at hz ⊢
      simp [List.countP_cons, Event.isWrite, hz]
    · intro u x hmem
      rw [mem_trace_write, h3] at hmem
      have hu : u = w := by
        simp [hn] at hmem
        exact hmem.1
      subst hu
      exact hc (by rw [h3]; simp)

theorem held_writes {tasks : List (TaskFn α)} {s : State α} {w i : Nat} {ws : WState α}
    (h : WorkerOk tasks s w ws) (ht : ws.task = some i) :
    s.results[i]? = some none ∧ writeCount i s.trace = 0 ∧
      ∀ (u : Nat) (v : Val α), Event.write u i v ∉ s.trace := by
  obtain ⟨_, h2, rest, h3, h4⟩ := workerOk_held h ht
  have hno : ∀ (u : Nat) (v : Val α), Event.write u i v ∉ s.trace := by
    intro u v hmem
    rw [mem_trace_write, h3] at hmem
    simp [h4] at hmem
  exact ⟨h2, writeCount_eq_zero hno, hno⟩

theorem unclaimed_writes {tasks : List (TaskFn α)} {C : Int} {op : Bool} {s : State α}
    (hinv : Inv tasks C op s) {i : Nat} (hi : s.next ≤ i) :
    (¬ ∃ v, s.results[i]? = some (some v)) ∧ writeCount i s.trace = 0 ∧
      ∀ (u : Nat) (v : Val α), Event.write u i v ∉ s.trace := by
  obtain ⟨h1, h2⟩ := hinv.unclaimed i hi
  have hno : ∀ (u : Nat) (v : Val α), Event.write u i v ∉ s.trace := by
    intro u v hmem
    rw [mem_trace_write, h1] at hmem
    simp at hmem
  refine ⟨?_, writeCount_eq_zero hno, hno⟩
  rintro ⟨v, hv⟩
  by_cases hlt : i < tasks.length
  · rw [h2 hlt] at hv; cases hv
  · rw [List.getElem?_eq_none (by rw [hinv.results_len]; omega)] at hv
    cases hv

/-- The three possible situations of an index in a state of a run. -/
theorem task_status (s : State α) (i : Nat) :
    (s.next ≤ i) ∨
    (i < s.next ∧ ∃ (w : Nat) (ws : WState α), s.workers[w]? = some ws ∧ ws.task = some i) ∨
    (i < s.next ∧ Unheld s i) := by
  by_cases hlt : i < s.next
  · by_cases hh : ∃ (w : Nat) (ws : WState α), s.workers[w]? = some ws ∧ ws.task = some i
    · exact Or.inr (Or.inl ⟨hlt, hh⟩)
    · refine Or.inr (Or.inr ⟨hlt, ?_⟩)
      intro w ws hws ht
      exact hh ⟨w, ws, hws, ht⟩
  · exact Or.inl (by omega)

/-- C8: in every state `s` of every run, the indices claimed so far are `0, 1, ..., next-1`
in this order (each once, none skipped); every `results[i]` has been written at most once,
it has been written exactly when task `i` is terminal (claimed and no longer held by a
worker), which is exactly when the slot is set, and every write of `results[i]` was made
by the worker that claimed `i`.  With concurrency at least 1, once the run has ended every
index below `tasks.length` has been claimed and written exactly once. -/
theorem runPool_single_claim (tasks : List (TaskFn α)) (C : Int) (onProgress : Bool)
    (sched : Nat → Nat) (t : Nat) (s : State α)
    (hC : 1 ≤ C) (hs : s = stateAt tasks C onProgress sched t) :
    (claimsOf s.trace).map Prod.snd = List.range s.next ∧
    (∀ i, writeCount i s.trace ≤ 1) ∧
    (∀ i, writeCount i s.trace = 1 ↔ (i < s.next ∧ Unheld s i)) ∧
    (∀ i, writeCount i s.trace = 1 ↔ ∃ v, s.results[i]? = some (some v)) ∧
    (∀ (w i : Nat) (v : Val α), Event.write w i v ∈ s.trace → (w, i) ∈ claimsOf s.trace) ∧
    (fuelBound tasks C ≤ t →
      s.next = tasks.length ∧ ∀ i, i < tasks.length → writeCount i s.trace = 1) := by
  subst hs
  have hinv := inv_stateAt tasks C onProgress sched t
  refine ⟨hinv.claims, ?_, ?_, ?_, ?_, ?_⟩
  · intro i
    rcases task_status (stateAt tasks C onProgress sched t) i with h | ⟨_, w, ws, hws, ht⟩ | ⟨hlt, hun⟩
    · rw [(unclaimed_writes hinv h).2.1]; omega
    · rw [(held_writes (hinv.worker_ok w ws hws) ht).2.1]; omega
    · rw [(settled_writes (hinv.settled i hlt hun)).2.1]
  · intro i
    rcases task_status (stateAt tasks C onProgress sched t) i with h | ⟨_, w, ws, hws, ht⟩ | ⟨hlt, hun⟩
    · rw [(unclaimed_writes hinv h).2.1]
      constructor
      · intro h0; omega
      · rintro ⟨h1, _⟩; omega
    · rw [(held_writes (hinv.worker_ok w ws hws) ht).2.1]
      constructor
      · intro h0; omega
      · rintro ⟨_, hun⟩
        exact absurd ht (hun w ws hws)
    · rw [(settled_writes (hinv.settled i hlt hun)).2.1]
      exact ⟨fun _ => ⟨hlt, hun⟩, fun _ => rfl⟩
  · intro i
    rcases task_status (stateAt tasks C onProgress sched t) i with h | ⟨_, w, ws, hws, ht⟩ | ⟨hlt, hun⟩
    · rw [(unclaimed_writes hinv h).2.1]
      constructor
      · intro h0; omega
      · intro h1
        exact absurd h1 (unclaimed_writes hinv h).1
    · rw [(held_writes (hinv.worker_ok w ws hws) ht).2.1]
      constructor
      · intro h0; omega
      · rintro ⟨v, hv⟩
        rw [(held_writes (hinv.worker_ok w ws hws) ht).1] at hv
        cases hv
    · rw [(settled_writes (hinv.settled i hlt hun)).2.1]
      exact ⟨fun _ => (settled_writes (hinv.settled i hlt hun)).1, fun _ => rfl⟩
  · intro w i v hmem
    rw [mem_claimsOf]
    rcases task_status (stateAt tasks C onProgress sched t) i with h | ⟨_, u, us, hus, ht⟩ | ⟨hlt, hun⟩
    · exact absurd hmem ((unclaimed_writes hinv h).2.2 w v)
    · exact absurd hmem ((held_writes (hinv.worker_ok u us hus) ht).2.2 w v)
    · exact (settled_writes (hinv.settled i hlt hun)).2.2 w v hmem
  · intro hfuel
    have hf := isFinal_stateAt tasks C onProgress sched t hfuel
    have hnext := inv_final_next hinv hf hC
    refine ⟨hnext, fun i hi => ?_⟩
    exact (settled_writes (hinv.settled i (by omega) (final_unheld hf i))).2.1

theorem runPool_single_claim_witness :
    (claimsOf (stateAt retryTasks 2 true rotate 40).trace).map Prod.snd =
      List.range (stateAt retryTasks 2 true rotate 40).next ∧
    (∀ i, writeCount i (stateAt retryTasks 2 true rotate 40).trace ≤ 1) ∧
    (∀ i, writeCount i (stateAt retryTasks 2 true rotate 40).trace = 1 ↔
      (i < (stateAt retryTasks 2 true rotate 40).next ∧
        Unheld (stateAt retryTasks 2 true rotate 40) i)) ∧
    (∀ i, writeCount i (stateAt retryTasks 2 true rotate 40).trace = 1 ↔
      ∃ v, (stateAt retryTasks 2 true rotate 40).results[i]? = some (some v)) ∧
    (∀ (w i : Nat) (v : Val String),
      Event.write w i v ∈ (stateAt retryTasks 2 true rotate 40).trace →
      (w, i) ∈ claimsOf (stateAt retryTasks 2 true rotate 40).trace) ∧
    ((stateAt retryTasks 2 true rotate 40).next = retryTasks.length ∧
      ∀ i, i < retryTasks.length →
        writeCount i (stateAt retryTasks 2 true rotate 40).trace = 1) := by
  have h := runPool_single_claim retryTasks 2 true rotate 40 _ (by decide) rfl
  exact ⟨h.1, h.2.1, h.2.2.1, h.2.2.2.1, h.2.2.2.2.1, h.2.2.2.2.2 (by decide)⟩

/-! ## Backoff -/

theorem sleepsOf_append (a b : List (Event α)) :
    sleepsOf (a ++ b) = sleepsOf a ++ sleepsOf b := by
  induction a with
  | nil => rfl
  | cons e l ih => cases e <;> simp [sleepsOf, ih]

theorem attemptsOf_append (i : Nat) (a b : List (Event α)) :
    attemptsOf i (a ++ b) = attemptsOf i a ++ attemptsOf i b := by
  simp [attemptsOf]

/-- C9: with concurrency at least 1, consider a task at index `i` whose first `k ≤ 2`
invocations fail and whose invocation `k + 1` either succeeds or is the third failure.
When the run has ended, its calls and backoff waits are, in order: call, wait 500 ms,
call, wait 1000 ms, call, cut after call `k + 1`.  So the wait after the `n`-th failed
invocation (`n < 3`) is `500 * n` ms and precedes invocation `n + 1`, no wait follows a
success or the third failure, and a task that always fails waits 1500 ms in total. -/
theorem runPool_backoff (tasks : List (TaskFn α)) (C : Int) (onProgress : Bool)
    (sched : Nat → Nat) (fuel i k : Nat) (t : TaskFn α)
    (hC : 1 ≤ C) (hi : tasks[i]? = some t) (hk : k < 3)
    (hfail : ∀ j, j < k → t.invoke j = Outcome.fail)
    (hend : (∃ v, t.invoke k = Outcome.ok v) ∨ (k = 2 ∧ t.invoke 2 = Outcome.fail))
    (hfuel : fuelBound tasks C ≤ fuel) :
    ∃ s, runPoolState tasks C onProgress sched fuel = some s ∧
      attemptsOf i s.trace = attemptsLog i k ∧
      sleepsFor i s.trace = (List.range k).map (fun n => 500 * (n + 1)) ∧
      ((∀ n, t.invoke n = Outcome.fail) →
        sleepsFor i s.trace = [500, 1000] ∧ (sleepsFor i s.trace).sum = 1500) := by
  obtain ⟨s, hs, _, _, _, _, _, hset⟩ := run_ends tasks C onProgress sched fuel hC hfuel
  have hlt : i < tasks.length := lt_length_of_getElem? hi
  have ht := taskAt_eq hi
  have key : ∃ w tl, proj i s.trace = Event.claim w i :: (attemptsLog i k ++ tl) ∧
      attemptsOf i tl = [] ∧ sleepsOf tl = [] := by
    rcases hend with ⟨v, hv⟩ | ⟨h2, hv⟩
    · obtain ⟨w, _, h3⟩ := settled_of_success (hset i hlt) hk (by rw [ht]; exact hfail)
        (by rw [ht]; exact hv)
      exact ⟨w, _, h3, by simp [attemptsOf, Event.isAttempt], by simp [sleepsOf]⟩
    · subst h2
      have hall : ∀ j, j < 3 → (taskAt tasks i).invoke j = Outcome.fail := by
        intro j hj
        rw [ht]
        rcases Nat.lt_or_ge j 2 with h | h
        · exact hfail j h
        · have : j = 2 := by omega
          subst this
          exact hv
      obtain ⟨w, _, h3⟩ := settled_of_failure (hset i hlt) hall
      exact ⟨w, _, h3, by simp [attemptsOf, Event.isAttempt], by simp [sleepsOf]⟩
  obtain ⟨w, tl, hp, htl1, htl2⟩ := key
  have hatt : attemptsOf i s.trace = attemptsLog i k := by
    rw [← attemptsOf_proj, hp]
    have hcons : attemptsOf i (Event.claim w i :: (attemptsLog i k ++ tl)) =
        attemptsOf i (attemptsLog i k ++ tl) := by
      simp [attemptsOf, List.filter_cons, Event.isAttempt]
    rw [hcons, attemptsOf_append, htl1, attemptsOf_attemptsLog, List.append_nil]
  have hsl : sleepsFor i s.trace = (List.range k).map (fun n => 500 * (n + 1)) := by
    rw [sleepsFor_proj, hp]
    have hcons : sleepsOf (Event.claim w i :: (attemptsLog i k ++ tl)) =
        sleepsOf (attemptsLog i k ++ tl) := rfl
    rw [hcons, sleepsOf_append, htl2, List.append_nil, sleepsOf_attemptsLog]
  refine ⟨s, hs, hatt, hsl, ?_⟩
  intro hall
  have hk2 : k = 2 := by
    rcases hend with ⟨v, hv⟩ | ⟨h2, _⟩
    · rw [hall k] at hv; cases hv
    · exact h2
  subst hk2
  rw [hsl]
  exact ⟨rfl, rfl⟩

theorem runPool_backoff_witness :
    ∃ s, runPoolState brokenTasks 5 true firstLive 24 = some s ∧
      attemptsOf 1 s.trace = attemptsLog 1 2 ∧
      sleepsFor 1 s.trace = (List.range 2).map (fun n => 500 * (n + 1)) ∧
      (sleepsFor 1 s.trace = [500, 1000] ∧ (sleepsFor 1 s.trace).sum = 1500) := by
  obtain ⟨s, h1, h2, h3, h4⟩ := runPool_backoff brokenTasks 5 true firstLive 24 1 2
    (TaskFn.callable (fun _ => Outcome.fail)) (by decide) rfl (by decide)
    (fun _ _ => rfl) (Or.inr ⟨rfl, rfl⟩) (by decide)
  exact ⟨s, h1, h2, h3, h4 (fun _ => rfl)⟩

/-! ## Aggregation -/

theorem aggStep_skip (a : Agg) (pd : Option (Val PicksBody)) (h : hasPicks pd = false) :
    aggStep a pd = a := by
  cases pd with
  | none => rfl
  | some v =>
    cases v with
    | null => rfl
    | data b =>
      cases b with
      | mk picks =>
        cases picks with
        | none => rfl
        | some l => simp [hasPicks] at h

theorem foldl_aggStep_filter (rs : List (Option (Val PicksBody))) (a : Agg) :
    rs.foldl aggStep a = (rs.filter hasPicks).foldl aggStep a := by
  induction rs generalizing a with
  | nil => rfl
  | cons pd l ih =>
    cases h : hasPicks pd with
    | true => simp [List.filter_cons, h, ih]
    | false => simp [List.filter_cons, h, aggStep_skip a pd h, ih]

theorem aggStep_totalManagers (a : Agg) (pd : Option (Val PicksBody)) :
    (aggStep a pd).totalManagers = a.totalManagers + (if hasPicks pd then 1 else 0) := by
  cases h : hasPicks pd with
  | false => simp [aggStep_skip a pd h]
  | true =>
    cases pd with
    | none => simp [hasPicks] at h
    | some v =>
      cases v with
      | null => simp [hasPicks] at h
      | data b =>
        cases b with
        | mk picks =>
          cases picks with
          | none => simp [hasPicks] at h
          | some l => simp [aggStep]

theorem foldl_aggStep_totalManagers (rs : List (Option (Val PicksBody))) (a : Agg) :
    (rs.foldl aggStep a).totalManagers = a.totalManagers + (rs.filter hasPicks).length := by
  induction rs generalizing a with
  | nil => rfl
  | cons pd l ih =>
    rw [List.foldl_cons, ih, aggStep_totalManagers]
    cases h : hasPicks pd with
    | false => simp [List.filter_cons, h]
    | true =>
      simp [List.filter_cons, h]
      omega

theorem aggStep_players_pos (a : Agg) (pd : Option (Val PicksBody))
    (h : a.players ≠ [] → 0 < a.totalManagers) :
    (aggStep a pd).players ≠ [] → 0 < (aggStep a pd).totalManagers := by
  cases hp : hasPicks pd with
  | false => rw [aggStep_skip a pd hp]; exact h
  | true =>
    intro _
    rw [aggStep_totalManagers, hp]
    simp

theorem foldl_aggStep_players_pos (rs : List (Option (Val PicksBody))) (a : Agg)
    (h : a.players ≠ [] → 0 < a.totalManagers) :
    (rs.foldl aggStep a).players ≠ [] → 0 < (rs.foldl aggStep a).totalManagers := by
  induction rs generalizing a with
  | nil => exact h
  | cons pd l ih =>
    rw [List.foldl_cons]
    exact ih _ (aggStep_players_pos a pd h)

/-- The integer returned by `roundHalfEven` is nearest to `n / d`, and even at a tie. -/
theorem roundHalfEven_nearest (n d : Nat) (hd : 0 < d) :
    (2 * (roundHalfEven n d * d) ≤ 2 * n + d ∧ 2 * n ≤ 2 * (roundHalfEven n d * d) + d) ∧
      ((2 * (roundHalfEven n d * d) = 2 * n + d ∨ 2 * n = 2 * (roundHalfEven n d * d) + d) →
        roundHalfEven n d % 2 = 0) := by
  have hdm := Nat.div_add_mod n d
  have hlt := Nat.mod_lt n hd
  have h1 : (n / d) * d = d * (n / d) := Nat.mul_comm _ _
  have h2 : (n / d + 1) * d = d * (n / d) + d := by rw [Nat.add_mul, h1, Nat.one_mul]
  unfold roundHalfEven
  simp only
  split
  · rw [h1]
    refine ⟨⟨by omega, by omega⟩, fun h => ?_⟩
    omega
  · split
    · rw [h2]
      refine ⟨⟨by omega, by omega⟩, fun h => ?_⟩
      omega
    · split
      · rename_i hev
        rw [h1]
        exact ⟨⟨by omega, by omega⟩, fun _ => hev⟩
      · rename_i hodd
        rw [h2]
        refine ⟨⟨by omega, by omega⟩, fun _ => ?_⟩
        omega

/-- Conversion of integers: exact up to `2^53`, then to the nearest double, a tie going
to the even significand (`2^53 + 1` gives `2^53`, `2^53 + 3` gives `2^53 + 4`). -/
theorem F64_ofInt_examples :
    F64.ofInt 100 = ⟨25, 2⟩ ∧ F64.ofInt (-6) = ⟨-3, 1⟩ ∧
    F64.ofInt (2 ^ 53 + 1) = ⟨1, 53⟩ ∧
    F64.ofInt (2 ^ 53 + 3) = ⟨2 ^ 51 + 1, 2⟩ := by
  decide

/-- Line 92 at 1 of 3 managers: the code writes 33.33333333333333, the double
`2345624805922133 / 2^46`, which is not the exact quotient `100 / 3`. -/
theorem eoOf_one_of_three :
    eoOf 3 ⟨1, 1, 0, 0⟩ = ⟨2345624805922133, -46⟩ ∧
      (3 : Int) * 2345624805922133 ≠ 100 * 2 ^ 46 := by
  decide

/-- Line 92 at 7 of 25 managers: the code writes 28.000000000000004, that is
`28 + 2^-48`. -/
theorem eoOf_seven_of_25 :
    eoOf 25 ⟨7, 7, 0, 0⟩ = ⟨7881299347898369, -48⟩ ∧
      (7881299347898369 : Int) = 28 * 2 ^ 48 + 1 := by
  decide

/-- Line 92 at 7 of 10000 managers: the code writes 0.06999999999999999. -/
theorem eoOf_seven_of_10000 :
    eoOf 10000 ⟨7, 7, 0, 0⟩ = ⟨5044031582654955, -56⟩ := by
  decide

/-- Line 92 where the result is exact: 3 of 2 managers gives 150. -/
theorem eoOf_three_of_two : eoOf 2 ⟨3, 2, 1, 0⟩ = F64.ofInt 150 := by
  decide

/-- C10: the aggregation of `main` skips failed results.  For every list of pick results,
the aggregate (`totalManagers` and every player entry with `selected`, `multiplierSum`,
`captained`, `tripled` and `eo`) equals the aggregate of the list with the `null` entries
and the entries without `picks` removed; `totalManagers` is the number of remaining
entries; and for every player present `totalManagers > 0` and `eo` is
`multiplierSum / totalManagers * 100`, with `/` and `*` the double-precision operators
of the source. -/
theorem aggregate_skips_failed (picksResults : List (Option (Val PicksBody))) :
    aggregate picksResults = aggregate (picksResults.filter hasPicks) ∧
    (aggregate picksResults).totalManagers = (picksResults.filter hasPicks).length ∧
    ∀ (id : Nat) (p : Player), (id, p) ∈ (aggregate picksResults).players →
      0 < (aggregate picksResults).totalManagers ∧
      p.eo = f64mul
        (f64div (F64.ofInt p.multiplierSum)
          (F64.ofInt ((aggregate picksResults).totalManagers : Int)))
        (F64.ofInt 100) := by
  refine ⟨?_, ?_, ?_⟩
  · have h := foldl_aggStep_filter picksResults ⟨0, []⟩
    simp only [aggregate, tallyAll]
    rw [← h]
  · have h := foldl_aggStep_totalManagers picksResults ⟨0, []⟩
    simp only [aggregate, tallyAll]
    rw [h]
    simp
  · intro id p hmem
    simp only [aggregate, List.mem_map] at hmem
    obtain ⟨kv, hkv, heq⟩ := hmem
    have hne : (tallyAll picksResults).players ≠ [] := List.ne_nil_of_mem hkv
    have hpos : 0 < (tallyAll picksResults).totalManagers :=
      foldl_aggStep_players_pos picksResults ⟨0, []⟩ (fun h => absurd rfl h) hne
    have hp : p = { multiplierSum := kv.2.multiplierSum
                    selected := kv.2.selected
                    captained := kv.2.captained
                    tripled := kv.2.tripled
                    eo := eoOf (tallyAll picksResults).totalManagers kv.2 } :=
      (congrArg Prod.snd heq).symm
    refine ⟨hpos, ?_⟩
    rw [hp]
    show eoOf (tallyAll picksResults).totalManagers kv.2 = _
    unfold eoOf
    rw [if_pos hpos]
    rfl

theorem aggregate_skips_failed_witness :
    aggregate samplePicks = aggregate (samplePicks.filter hasPicks) ∧
    (aggregate samplePicks).totalManagers = (samplePicks.filter hasPicks).length ∧
    ∃ p : Player, (9, p) ∈ (aggregate samplePicks).players ∧
      0 < (aggregate samplePicks).totalManagers ∧
      p.eo = f64mul
        (f64div (F64.ofInt p.multiplierSum)
          (F64.ofInt ((aggregate samplePicks).totalManagers : Int)))
        (F64.ofInt 100) ∧
      p.eo = ⟨2345624805922133, -46⟩ := by
  have h := aggregate_skips_failed samplePicks
  have hmem : (9, (⟨1, 1, 0, 0, ⟨2345624805922133, -46⟩⟩ : Player)) ∈
      (aggregate samplePicks).players := by decide
  exact ⟨h.1, h.2.1, _, hmem, (h.2.2 9 _ hmem).1, (h.2.2 9 _ hmem).2, rfl⟩

end FetchEo
